import Mathlib

set_option maxHeartbeats 1600000

/-!
Shallow embedding of the `leftpad` kernel module (`src/leftpad.c`) and proofs
about its ring buffer, newline index and per-line padding state machine.

The embedding models one session (`struct buffer`) as a record, and the three
entry points `leftpad_write`, `leftpad_read` and `leftpad_ioctl` as pure
functions on that record.  Machine (`size_t` / `ssize_t`) arithmetic is
modelled explicitly with `% 2^64` and two's-complement reinterpretations where
the C code can wrap.  `copy_to_user` / `copy_from_user` are modelled by a
fault oracle `cf : Nat → Bool` giving, per call site occurrence inside one
invocation, whether the copy fails; the blocking/waking machinery is
abstracted to a sequential semantics: a read that finds no complete line
returns `EAGAIN` with the state unchanged (in blocking mode the C code sleeps
with the state unchanged, so sequential traces are unaffected), and
`leftpad_write` never consults the blocking flag in the source at all.
-/

namespace Leftpad

/-- Modulus of the C 64-bit `size_t` and pointer arithmetic. -/
def W : Nat := 2 ^ 64

/-- Errno for a non-blocking read that found no complete line. -/
def EAGAIN : Nat := 11

/-- Errno for a failed `copy_to_user`/`copy_from_user`. -/
def EFAULT : Nat := 14

/-- Errno for a rejected ioctl parameter. -/
def EINVAL : Nat := 22

/-- Errno returned by `leftpad_write` when the data does not fit. -/
def ENOBUFS : Nat := 105

/-- Bound accepted by `IOCTL_SET_WIDTH` (`MAX_WIDTH` in the source). -/
def MAX_WIDTH : Nat := 1024

/-- The newline byte `'\n'`. -/
def NL : Nat := 10

/-- Reinterpretation of a 64-bit unsigned value as `ssize_t` (two's complement). -/
def sizeToSSize (n : Nat) : Int := if n < 2 ^ 63 then (n : Int) else (n : Int) - 2 ^ 64

/-- Reinterpretation of an `ssize_t` value as 64-bit `size_t`. -/
def unsignedOf (i : Int) : Nat := (i % (2 ^ 64 : Int)).toNat

/-- Two's-complement wrap of an integer into the `ssize_t` range, the result of
storing an out-of-range difference back into an `ssize_t` field. -/
def wrapS (x : Int) : Int := ((x + 2 ^ 63) % 2 ^ 64) - 2 ^ 63

/-- The per-session state `struct buffer` of `src/leftpad.c`.  The doubly
linked sentinel list of `struct newline` records is modelled as the FIFO list
of its stored ring offsets (head first); `start` becomes `storage` (the
`kmalloc`ed array; uninitialised bytes are modelled as 0 — no theorem below
depends on the value of a byte that was never written).  All other fields are
kept with their C names.  `length` and `cursor` are the `size_t` fields and
`padding_left` the `ssize_t` field (`-1` encodes "padding undetermined"). -/
structure Buffer where
  size : Nat
  width : Nat
  fill : Nat
  storage : List Nat
  cursor : Nat
  length : Nat
  padding_left : Int
  newlines : List Nat
deriving DecidableEq

/-- The state built by `buffer_alloc(size, width, fill)`. -/
def buffer_alloc (size width fill : Nat) : Buffer :=
  { size := size
    width := width
    fill := fill
    storage := List.replicate size 0
    cursor := 0
    length := 0
    padding_left := -1
    newlines := [] }

/-- Byte of the live region at logical depth `d` from the cursor
(`buf->start[(buf->cursor + d) % buf->size]`). -/
def byteAt (buf : Buffer) (d : Nat) : Nat :=
  buf.storage.getD ((buf.cursor + d) % buf.size) 0

/-- The live (written, unread) bytes of the ring, oldest first. -/
def liveBytes (buf : Buffer) : List Nat :=
  (List.range buf.length).map (byteAt buf)

/-- Depths (distances from the cursor) of the newline bytes of the live
region, in FIFO order. -/
def nlDepths (buf : Buffer) : List Nat :=
  (List.range buf.length).filter fun d => decide (byteAt buf d = NL)

/-- Ring offsets of the newline bytes of the live region in FIFO order: the
canonical value of the `newlines` field in a well-formed state. -/
def nlOffsets (buf : Buffer) : List Nat :=
  (nlDepths buf).map fun d => (buf.cursor + d) % buf.size

/-- Depth of the oldest unread newline, if any. -/
def firstNl (buf : Buffer) : Option Nat :=
  (nlDepths buf).head?

/-- Line length as computed at `src/leftpad.c:323`:
`(buf->head->next->ix - buf->cursor) % buf->size`, a `size_t` subtraction
(wrapping modulo `2^64`) followed by `% buf->size`. -/
def line_length_of (buf : Buffer) (ix : Nat) : Nat :=
  ((ix + W - buf.cursor) % W) % buf.size

/-- Bytes read contiguously out of the ring starting at `cursor`, mirroring
the two `copy_to_user` branches of `leftpad_read` (at most one wrap). -/
def ringTake (st : List Nat) (size cursor n : Nat) : List Nat :=
  if cursor + n > size then
    (st.drop cursor).take (size - cursor) ++ st.take (n - (size - cursor))
  else
    (st.drop cursor).take n

/-- Result of `leftpad_read`: either the new state with the pad bytes and the
content bytes delivered to the caller (the C return count is their total
length), or a negative errno with the state as the call left it. -/
inductive ReadResult where
  | ok : Buffer → List Nat → List Nat → ReadResult
  | err : Nat → Buffer → ReadResult
deriving DecidableEq

/-- The `leftpad_read` entry point (`src/leftpad.c:296-389`).  `cf k` tells
whether the `k`-th `copy_to_user` call of this invocation fails (pad-byte
copies are calls `0, …, padding-1`; the content copies follow).  A state with
no complete line yields `EAGAIN` with the state unchanged (the blocking mode
sleeps instead, also without mutating); the interrupted-lock returns
(`ERESTARTSYS`), which also mutate nothing, are not modelled. -/
def leftpad_read (cf : Nat → Bool) (len : Nat) (buf : Buffer) : ReadResult :=
  match buf.newlines with
  | [] => .err EAGAIN buf
  | ix :: rest =>
    let line_length := line_length_of buf ix
    let pl0 : Int :=
      if buf.padding_left = -1 then
        max 0 (sizeToSSize buf.width - sizeToSSize line_length)
      else buf.padding_left
    let padding : Int := min (sizeToSSize len) pl0
    let buf1 : Buffer := { buf with padding_left := pl0 }
    if (List.range padding.toNat).any cf then .err EFAULT buf1
    else if unsignedOf pl0 ≥ len then
      .ok { buf1 with padding_left := wrapS (pl0 - sizeToSSize len) }
        (List.replicate padding.toNat buf.fill) []
    else
      let len2 := len - unsignedOf pl0
      let actual := min len2 (line_length + 1)
      let fault : Bool :=
        if buf.cursor + actual > buf.size then
          cf padding.toNat || cf (padding.toNat + 1)
        else cf padding.toNat
      if fault then .err EFAULT { buf1 with padding_left := 0 }
      else
        .ok { buf with
              cursor := (buf.cursor + actual) % buf.size
              length := (buf.length + W - actual) % W
              padding_left := if line_length + 1 ≤ len2 then -1 else 0
              newlines := if line_length + 1 ≤ len2 then rest else buf.newlines }
          (List.replicate padding.toNat buf.fill)
          (ringTake buf.storage buf.size buf.cursor actual)

/-- Result of `leftpad_write`: the new state and accepted byte count, or a
negative errno with the state as the call left it. -/
inductive WriteResult where
  | ok : Buffer → Nat → WriteResult
  | err : Nat → Buffer → WriteResult
deriving DecidableEq

/-- Contiguous `memcpy` into the byte array at position `pos` (writes landing
outside the array are dropped, as the C behaviour there is undefined). -/
def writeBytes : List Nat → Nat → List Nat → List Nat
  | st, _, [] => st
  | st, pos, b :: bs => writeBytes (st.set pos b) (pos + 1) bs

/-- The newline scan of `leftpad_write` (`src/leftpad.c:434-438`): offsets of
the just-written bytes of `st` that hold `'\n'`, in left-to-right order,
appended to the index by `append_newline` (whose allocation failure the
source ignores; it is modelled as always succeeding). -/
def scanNewlines (buf : Buffer) (n : Nat) (st : List Nat) : List Nat :=
  (List.range n).filterMap fun i =>
    let off := ((buf.cursor + buf.length + i) % W) % buf.size
    if st.getD off 0 = NL then some off else none

/-- Common tail of a successful `leftpad_write`: install the new storage, scan
the newly written bytes for terminators, grow `length`. -/
def writeFinish (buf : Buffer) (n : Nat) (st : List Nat) : WriteResult :=
  .ok { buf with
        storage := st
        newlines := buf.newlines ++ scanNewlines buf n st
        length := (buf.length + n) % W } n

/-- The `leftpad_write` entry point (`src/leftpad.c:391-452`).  The source
never consults `O_NONBLOCK` and has no writer wait queue: when the data does
not fit it returns `-ENOBUFS` in blocking and non-blocking mode alike.  The
three `copy_from_user` cases follow the source comment (no wrap / wrap in the
middle / already wrapped); `cf k` tells whether the `k`-th copy call fails. -/
def leftpad_write (cf : Nat → Bool) (data : List Nat) (buf : Buffer) : WriteResult :=
  let n := data.length
  if (buf.length + n) % W > buf.size then .err ENOBUFS buf
  else if (buf.cursor + buf.length + n) % W ≤ buf.size then
    if cf 0 then .err EFAULT buf
    else writeFinish buf n (writeBytes buf.storage ((buf.cursor + buf.length) % W) data)
  else if (buf.cursor + buf.length) % W ≤ buf.size then
    let chunk := buf.size - (buf.cursor + buf.length) % W
    if cf 0 then .err EFAULT buf
    else
      let st1 := writeBytes buf.storage ((buf.cursor + buf.length) % W) (data.take chunk)
      if cf 1 then .err EFAULT { buf with storage := st1 }
      else writeFinish buf n (writeBytes st1 0 (data.drop chunk))
  else
    if cf 0 then .err EFAULT buf
    else writeFinish buf n (writeBytes buf.storage (((buf.cursor + buf.length) % W) % buf.size) data)

/-- The ioctl selector (`IOCTL_SET_WIDTH` / `IOCTL_SET_FILL` / anything else). -/
inductive IoctlNum where
  | setWidth : IoctlNum
  | setFill : IoctlNum
  | other : IoctlNum
deriving DecidableEq

/-- Result of `leftpad_ioctl`. -/
inductive IoctlResult where
  | ok : Buffer → IoctlResult
  | err : Nat → Buffer → IoctlResult
deriving DecidableEq

/-- The `leftpad_ioctl` entry point (`src/leftpad.c:259-294`).  `SET_FILL`
stores into the `char` field, truncating the parameter modulo 256. -/
def leftpad_ioctl (num : IoctlNum) (param : Nat) (buf : Buffer) : IoctlResult :=
  match num with
  | .setWidth =>
    if param > MAX_WIDTH then .err EINVAL buf else .ok { buf with width := param }
  | .setFill =>
    if param > 256 then .err EINVAL buf else .ok { buf with fill := param % 256 }
  | .other => .err EINVAL buf

/-- The state assembled by a successful `leftpad_write` of `data` whose copies
produced the storage `st2`, before the `% 2^64` on the length is discharged. -/
def bufAfterWrite (buf : Buffer) (data st2 : List Nat) : Buffer :=
  { buf with
    storage := st2
    newlines := buf.newlines ++ scanNewlines buf data.length st2
    length := buf.length + data.length }

/-- The fault oracle of a session whose user-space copies all succeed. -/
def noFault : Nat → Bool := fun _ => false

/-- One operation of a single-writer/single-reader session trace. -/
inductive Op where
  | write : List Nat → Op
  | read : Nat → Op
deriving DecidableEq

/-- Realisability bound for one trace operation: read counts and write sizes
a 64-bit kernel can actually pass (the syscall layer caps both well below
`2^63`). -/
def opSmall : Op → Prop
  | .write data => data.length ≤ 2 ^ 63
  | .read n => n < 2 ^ 63

instance (o : Op) : Decidable (opSmall o) := by
  cases o <;> simp only [opSmall] <;> infer_instance

/-- Payload of a trace operation (empty for reads). -/
def opData : Op → List Nat
  | .write data => data
  | .read _ => []

/-- Concatenation of all written byte sequences of a trace, in order. -/
def concatWrites (ops : List Op) : List Nat :=
  (ops.map opData).flatten

/-- Run a trace with no user-copy faults.  Returns the final state together
with the concatenated pad bytes and the concatenated content bytes delivered
by the reads, or `none` if some write fails.  A read that finds no complete
line leaves the state unchanged (the reader retries later). -/
def runOps : Buffer → List Op → Option (Buffer × List Nat × List Nat)
  | buf, [] => some (buf, [], [])
  | buf, Op.write data :: ops =>
    match leftpad_write noFault data buf with
    | .ok buf2 _ => runOps buf2 ops
    | .err _ _ => none
  | buf, Op.read n :: ops =>
    match leftpad_read noFault n buf with
    | .ok buf2 pads content =>
      (runOps buf2 ops).map fun r => (r.1, pads ++ r.2.1, content ++ r.2.2)
    | .err _ buf2 => runOps buf2 ops

/-- Drain the line at the front of the index with the given sequence of read
sizes: returns the total number of fill bytes delivered up to and including
the read that finishes the line (detected by the newline index shrinking),
or `none` if the size list is exhausted first or a read fails. -/
def drainLine : List Nat → Buffer → Option Nat
  | [], _ => none
  | n :: ns, buf =>
    match leftpad_read noFault n buf with
    | .ok buf2 pads _ =>
      if buf2.newlines.length < buf.newlines.length then some pads.length
      else (drainLine ns buf2).map (pads.length + ·)
    | .err _ _ => none

/-- Drain the session with the given sequence of read sizes until no complete
line remains, concatenating everything (pads and content) the reads deliver.
Returns `none` if the size list runs out before the lines do. -/
def drainSched : List Nat → Buffer → Option (List Nat)
  | [], buf => if buf.newlines = [] then some [] else none
  | n :: ns, buf =>
    match leftpad_read noFault n buf with
    | .ok buf2 pads content => (drainSched ns buf2).map ((pads ++ content) ++ ·)
    | .err _ _ => some []

/-- Drain by repeatedly reading `width + size + 1` bytes (always enough for a
whole padded line), with fuel. -/
def bigDrain : Nat → Buffer → List Nat
  | 0, _ => []
  | fuel + 1, buf =>
    match leftpad_read noFault (buf.width + buf.size + 1) buf with
    | .ok buf2 pads content => pads ++ content ++ bigDrain fuel buf2
    | .err _ _ => []

/-- Canonical fully-drained output of a state: one whole padded line per
buffered newline. -/
def specOf (buf : Buffer) : List Nat :=
  bigDrain (buf.newlines.length + 1) buf

/-- The padding owed for the front line: the fixed `padding_left` if a drain
is in flight, otherwise `max 0 (width − line length)` as `leftpad_read` will
fix it when the drain begins. -/
def padGoal (buf : Buffer) (d0 : Nat) : Int :=
  if buf.padding_left = -1 then max 0 ((buf.width : Int) - (d0 : Int))
  else buf.padding_left

/-- State after a successful content-delivering read of `a` bytes of the
front line (`fin` = the terminator was reached). -/
def afterRead (buf : Buffer) (a : Nat) (fin : Bool) : Buffer :=
  { buf with
    cursor := (buf.cursor + a) % buf.size
    length := buf.length - a
    padding_left := if fin then -1 else 0
    newlines := if fin then buf.newlines.tail else buf.newlines }

/-- Well-formedness of a session state, as established by `buffer_alloc` and
preserved by fault-free reads and writes when the capacity is a power of two
(`W % size = 0`): the storage has the allocated size, cursor and length are
in range, `newlines` is exactly the FIFO of newline offsets of the live
region, and the padding state is `-1` or a pad count bounded by the width
(and only set while its line is still indexed).  The size bounds `2^62` keep
every `size_t`/`ssize_t` cast of the source in its exact range. -/
def Inv (buf : Buffer) : Prop :=
  buf.storage.length = buf.size ∧
  0 < buf.size ∧
  W % buf.size = 0 ∧
  buf.size < 2 ^ 62 ∧
  buf.width < 2 ^ 62 ∧
  buf.cursor < buf.size ∧
  buf.length ≤ buf.size ∧
  buf.newlines = nlOffsets buf ∧
  -1 ≤ buf.padding_left ∧
  buf.padding_left ≤ (buf.width : Int) ∧
  (buf.padding_left ≠ -1 → buf.newlines ≠ [])

instance (buf : Buffer) : Decidable (Inv buf) := by
  unfold Inv
  infer_instance

/-- State reached from `buffer_alloc 3 0 45` by `write "a\n"; read 10;
write "b\n"`: capacity 3 (not a power of two), the front line `"b\n"` wraps
around the ring end (terminator offset 0, cursor 2). -/
def bugBuf : Buffer := ⟨3, 0, 45, [10, 10, 98], 2, 2, -1, [0]⟩

/-- Same wrapped-line state as `bugBuf` but with width 2. -/
def bugBuf2 : Buffer := ⟨3, 2, 45, [10, 10, 98], 2, 2, -1, [0]⟩

/-- State after additionally reading the wrapped line out of `bugBuf`: the
mis-computed line length makes the read consume 3 bytes out of 2, so the
`size_t` field `length` underflows to `2^64 - 1`. -/
def bugBufEnd : Buffer := ⟨3, 0, 45, [10, 10, 98], 2, W - 1, -1, []⟩

/-- State reached from `buffer_alloc 4 5 45` by `write "a\n"; read 2`: the
line `"a"` (width 5) is mid-drain with 2 of its 4 pad bytes delivered, so
`padding_left = 2` (the `Remaining` padding state). -/
def midBuf : Buffer := ⟨4, 5, 45, [97, 10, 0, 0], 0, 2, 2, [1]⟩

/-- State reached from `buffer_alloc 4 5 45` by `write "a\n"`: one complete
line buffered, drain not started (`padding_left = -1`). -/
def preBuf : Buffer := ⟨4, 5, 45, [97, 10, 0, 0], 0, 2, -1, [1]⟩

/-- State left behind when a read of `preBuf` hits a `copy_to_user` fault on
its first pad byte: `padding_left` was already fixed to 4. -/
def faultedBuf : Buffer := ⟨4, 5, 45, [97, 10, 0, 0], 0, 2, 4, [1]⟩

/-! ## Theorems -/

/-! ### Machine-arithmetic helpers -/

theorem sizeToSSize_small {n : Nat} (h : n < 2 ^ 63) : sizeToSSize n = n := by
  unfold sizeToSSize
  rw [if_pos h]

theorem unsignedOf_small {i : Int} (h0 : 0 ≤ i) (h1 : i < 2 ^ 64) : unsignedOf i = i.toNat := by
  unfold unsignedOf
  rw [Int.emod_eq_of_lt h0 h1]

theorem wrapS_small {x : Int} (h0 : -2 ^ 63 ≤ x) (h1 : x < 2 ^ 63) : wrapS x = x := by
  unfold wrapS
  rw [Int.emod_eq_of_lt (by omega) (by omega)]
  omega

theorem W_eq : W = 2 ^ 64 := rfl

/-! ### Storage (`memcpy`) helpers -/

theorem length_writeBytes (data : List Nat) :
    ∀ (st : List Nat) (pos : Nat), (writeBytes st pos data).length = st.length := by
  induction data with
  | nil => intro st pos; rfl
  | cons b bs ih =>
    intro st pos
    show (writeBytes (st.set pos b) (pos + 1) bs).length = st.length
    rw [ih, List.length_set]

theorem getD_set_ne (st : List Nat) (p q b : Nat) (h : p ≠ q) :
    (st.set p b).getD q 0 = st.getD q 0 := by
  by_cases hq : q < st.length
  · rw [List.getD_eq_getElem _ _ (by simpa using hq), List.getD_eq_getElem _ _ hq]
    exact List.getElem_set_ne h _
  · rw [List.getD_eq_default _ _ (by simpa using Nat.le_of_not_lt hq),
      List.getD_eq_default _ _ (Nat.le_of_not_lt hq)]

theorem getD_set_at (st : List Nat) (p b : Nat) (h : p < st.length) :
    (st.set p b).getD p 0 = b := by
  rw [List.getD_eq_getElem _ _ (by simpa using h)]
  simp [List.getElem_set]

theorem getD_writeBytes_lt (data : List Nat) :
    ∀ (st : List Nat) (pos q : Nat), q < pos →
      (writeBytes st pos data).getD q 0 = st.getD q 0 := by
  induction data with
  | nil => intro st pos q _; rfl
  | cons b bs ih =>
    intro st pos q hq
    show (writeBytes (st.set pos b) (pos + 1) bs).getD q 0 = st.getD q 0
    rw [ih _ _ _ (by omega), getD_set_ne _ _ _ _ (by omega)]

theorem getD_writeBytes_ge (data : List Nat) :
    ∀ (st : List Nat) (pos q : Nat), pos + data.length ≤ q →
      (writeBytes st pos data).getD q 0 = st.getD q 0 := by
  induction data with
  | nil => intro st pos q _; rfl
  | cons b bs ih =>
    intro st pos q hq
    simp only [List.length_cons] at hq
    show (writeBytes (st.set pos b) (pos + 1) bs).getD q 0 = st.getD q 0
    rw [ih _ _ _ (by omega), getD_set_ne _ _ _ _ (by omega)]

theorem getD_writeBytes_at (data : List Nat) :
    ∀ (st : List Nat) (pos i : Nat), i < data.length → pos + i < st.length →
      (writeBytes st pos data).getD (pos + i) 0 = data.getD i 0 := by
  induction data with
  | nil => intro st pos i hi _; exact absurd hi (by simp)
  | cons b bs ih =>
    intro st pos i hi hq
    show (writeBytes (st.set pos b) (pos + 1) bs).getD (pos + i) 0 = (b :: bs).getD i 0
    match i with
    | 0 =>
      rw [getD_writeBytes_lt _ _ _ _ (by omega)]
      exact getD_set_at st pos b (by omega)
    | j + 1 =>
      have : pos + (j + 1) = (pos + 1) + j := by omega
      rw [this, ih _ _ _ (by simpa using hi) (by rw [List.length_set]; omega)]
      rfl

/-! ### Range and filter helpers -/

theorem drop_range (a l : Nat) (h : a ≤ l) :
    (List.range l).drop a = (List.range (l - a)).map (a + ·) := by
  have hd := List.drop_left (List.range a) ((List.range (l - a)).map (a + ·))
  rw [List.length_range] at hd
  conv_lhs => rw [show l = a + (l - a) by omega, List.range_add]
  exact hd

theorem map_getD_range (d : List Nat) :
    (List.range d.length).map (fun i => d.getD i 0) = d := by
  apply List.ext_getElem
  · simp
  · intro i h1 h2
    simp only [List.getElem_map, List.getElem_range]
    rw [List.getD_eq_getElem _ _ h2]

theorem filterMap_ite (p : Nat → Prop) [DecidablePred p] (f : Nat → Nat) (l : List Nat) :
    (l.filterMap fun i => if p i then some (f i) else none) =
      (l.filter fun i => decide (p i)).map f := by
  induction l with
  | nil => rfl
  | cons x xs ih =>
    by_cases hx : p x
    · rw [List.filterMap_cons, if_pos hx, List.filter_cons, if_pos (by simpa using hx)]
      simp only [List.map_cons]
      rw [ih]
    · rw [List.filterMap_cons, if_neg hx, List.filter_cons,
        if_neg (by simpa using hx)]
      exact ih

theorem head_filter_range {p : Nat → Bool} :
    ∀ {n a : Nat}, ((List.range n).filter p).head? = some a →
      a < n ∧ p a = true ∧ ∀ e, e < a → p e = false := by
  intro n
  induction n with
  | zero => intro a h; exact absurd h (by simp)
  | succ m ih =>
    intro a h
    rw [List.range_succ, List.filter_append] at h
    cases hm : (List.filter p (List.range m)).head? with
    | some b =>
      rw [List.head?_append, hm] at h
      obtain ⟨h1, h2, h3⟩ := ih hm
      have : b = a := by
        simp only [Option.or] at h
        injection h
      subst this
      exact ⟨by omega, h2, h3⟩
    | none =>
      have hnil : List.filter p (List.range m) = [] := List.head?_eq_none_iff.mp hm
      have hall : ∀ e, e < m → p e = false := by
        intro e he
        have := List.filter_eq_nil_iff.mp hnil e (by simpa using he)
        simpa using this
      rw [List.head?_append, hm] at h
      simp only [Option.or] at h
      by_cases hpm : p m
      · rw [List.filter_cons, if_pos hpm] at h
        simp only [List.filter_nil, List.head?_cons] at h
        injection h with h
        subst h
        exact ⟨by omega, hpm, hall⟩
      · rw [List.filter_cons, if_neg hpm] at h
        exact absurd h (by simp)

/-! ### Ring extraction and canonical newline structure -/

theorem segment_eq (st : List Nat) (p a : Nat) (h : p + a ≤ st.length) :
    (st.drop p).take a = (List.range a).map fun i => st.getD (p + i) 0 := by
  apply List.ext_getElem
  · simp
    omega
  · intro i h1 h2
    have hi : i < a := by simpa using h2
    simp only [List.getElem_take, List.getElem_drop, List.getElem_map, List.getElem_range]
    rw [List.getD_eq_getElem _ _ (by omega)]

theorem nlDepths_head {buf : Buffer} {d0 : Nat} (hfn : firstNl buf = some d0) :
    d0 < buf.length ∧ byteAt buf d0 = NL ∧ ∀ e, e < d0 → byteAt buf e ≠ NL := by
  unfold firstNl nlDepths at hfn
  obtain ⟨h1, h2, h3⟩ := head_filter_range hfn
  exact ⟨h1, by simpa using h2, fun e he => by simpa using h3 e he⟩

theorem nlDepths_eq_cons {buf : Buffer} {d0 : Nat} (hfn : firstNl buf = some d0) :
    ∃ ds, nlDepths buf = d0 :: ds := by
  unfold firstNl at hfn
  cases h : nlDepths buf with
  | nil => rw [h] at hfn; exact absurd hfn (by simp)
  | cons d ds =>
    rw [h, List.head?_cons] at hfn
    injection hfn with hd
    exact ⟨ds, by rw [hd]⟩

theorem line_length_eq {buf : Buffer} {d0 : Nat} (hInv : Inv buf) (hd0 : d0 < buf.size) :
    line_length_of buf ((buf.cursor + d0) % buf.size) = d0 := by
  obtain ⟨-, hpos, hdvd, hs62, -, hcur, -, -, -, -, -⟩ := hInv
  have hdvd2 : buf.size ∣ W := Nat.dvd_of_mod_eq_zero hdvd
  unfold line_length_of
  rw [Nat.mod_mod_of_dvd _ hdvd2]
  have hW0 : W ≡ 0 [MOD buf.size] := Nat.modEq_zero_iff_dvd.mpr hdvd2
  have hx : (buf.cursor + d0) % buf.size + W ≡ d0 + buf.cursor [MOD buf.size] := by
    calc (buf.cursor + d0) % buf.size + W
        ≡ (buf.cursor + d0) + W [MOD buf.size] :=
          Nat.ModEq.add_right W (Nat.mod_modEq (buf.cursor + d0) buf.size)
      _ ≡ (buf.cursor + d0) + 0 [MOD buf.size] := Nat.ModEq.add_left _ hW0
      _ = d0 + buf.cursor := by omega
  have hcle : buf.cursor ≤ (buf.cursor + d0) % buf.size + W := by
    have : W = 2 ^ 64 := rfl
    omega
  have h2 : ((buf.cursor + d0) % buf.size + W - buf.cursor) + buf.cursor ≡
      d0 + buf.cursor [MOD buf.size] := by
    rw [show ((buf.cursor + d0) % buf.size + W - buf.cursor) + buf.cursor =
      (buf.cursor + d0) % buf.size + W by omega]
    exact hx
  have h3 := Nat.ModEq.add_right_cancel' buf.cursor h2
  calc ((buf.cursor + d0) % buf.size + W - buf.cursor) % buf.size = d0 % buf.size := h3
    _ = d0 := Nat.mod_eq_of_lt hd0

theorem ringTake_eq {buf : Buffer} (a : Nat) (hInv : Inv buf) (ha : a ≤ buf.length) :
    ringTake buf.storage buf.size buf.cursor a = (liveBytes buf).take a := by
  obtain ⟨hst, hpos, -, -, -, hcur, hlen, -, -, -, -⟩ := hInv
  have hR : (liveBytes buf).take a = (List.range a).map (byteAt buf) := by
    unfold liveBytes
    rw [← List.map_take, List.take_range, inf_eq_left.mpr ha]
  rw [hR]
  unfold ringTake
  split_ifs with hw
  · -- the read wraps once around the ring end
    rw [segment_eq _ _ _ (by omega),
      show buf.storage.take (a - (buf.size - buf.cursor)) =
        (buf.storage.drop 0).take (a - (buf.size - buf.cursor)) by rw [List.drop_zero],
      segment_eq _ _ _ (by omega)]
    conv_rhs => rw [show a = (buf.size - buf.cursor) + (a - (buf.size - buf.cursor)) by omega,
      List.range_add, List.map_append, List.map_map]
    congr 1
    · apply List.map_congr_left
      intro i hi
      simp only [List.mem_range] at hi
      unfold byteAt
      rw [Nat.mod_eq_of_lt (by omega)]
    · apply List.map_congr_left
      intro i hi
      simp only [List.mem_range] at hi
      unfold byteAt
      simp only [Function.comp]
      rw [show buf.cursor + (buf.size - buf.cursor + i) = buf.size + i by omega,
        Nat.add_mod_left, Nat.mod_eq_of_lt (by omega), Nat.zero_add]
  · rw [segment_eq _ _ _ (by omega)]
    apply List.map_congr_left
    intro i hi
    simp only [List.mem_range] at hi
    unfold byteAt
    rw [Nat.mod_eq_of_lt (by omega)]

theorem byteAt_afterRead (buf : Buffer) (a : Nat) (fin : Bool) (d : Nat) :
    byteAt (afterRead buf a fin) d = byteAt buf (a + d) := by
  unfold byteAt afterRead
  simp only [Nat.mod_add_mod]
  congr 2
  omega

theorem liveBytes_afterRead (buf : Buffer) (a : Nat) (fin : Bool) (ha : a ≤ buf.length) :
    liveBytes (afterRead buf a fin) = (liveBytes buf).drop a := by
  unfold liveBytes
  rw [show (afterRead buf a fin).length = buf.length - a from rfl,
    ← List.map_drop, drop_range a buf.length ha, List.map_map]
  exact List.map_congr_left fun d _ => byteAt_afterRead buf a fin d

theorem nlDepths_afterRead (buf : Buffer) (a : Nat) (fin : Bool) :
    nlDepths (afterRead buf a fin) =
      (List.range (buf.length - a)).filter fun d => decide (byteAt buf (a + d) = NL) := by
  unfold nlDepths
  rw [show (afterRead buf a fin).length = buf.length - a from rfl]
  exact List.filter_congr fun d _ => by rw [byteAt_afterRead]

theorem nlDepths_decomp (buf : Buffer) (a : Nat) (ha : a ≤ buf.length) :
    nlDepths buf =
      ((List.range a).filter fun d => decide (byteAt buf d = NL)) ++
        (((List.range (buf.length - a)).filter fun d =>
          decide (byteAt buf (a + d) = NL)).map (a + ·)) := by
  unfold nlDepths
  conv_lhs => rw [show buf.length = a + (buf.length - a) by omega, List.range_add]
  rw [List.filter_append, List.filter_map]
  rfl

/-- Claim C3 (code bug): `leftpad_read` is meant to use the true modular
distance `(front_offset − cursor) mod capacity`, but the source computes the
subtraction in `size_t`, so on the reachable state `bugBuf` (capacity 3,
cursor 2, front terminator at offset 0 — a wrapped line) it yields
`((2^64 − 2) mod 2^64) mod 3 = 2` where the true modular distance is 1. -/
theorem C3_line_length_bug :
    runOps (buffer_alloc 3 0 45) [.write [97, 10], .read 10, .write [98, 10]] =
      some (bugBuf, [], [97, 10]) ∧
    line_length_of bugBuf 0 = 2 ∧
    ((0 : Int) - (bugBuf.cursor : Int)) % (bugBuf.size : Int) = 1 ∧
    (2 : Nat) ≠ 1 := by decide

/-- Claim C1 (counterexample): in a session of capacity 3 every write
succeeds, every written line is newline-terminated and both lines are fully
drained (the newline index ends empty), yet the reads deliver content
`"a\nb\n\n"` (a stale byte included) instead of the written `"a\nb\n"`,
because the wrapped front line's length is mis-computed (see C3). -/
theorem C1_counterexample :
    runOps (buffer_alloc 3 0 45) [.write [97, 10], .read 10, .write [98, 10], .read 10] =
      some (bugBufEnd, [], [97, 10, 98, 10, 10]) ∧
    bugBufEnd.newlines = [] ∧
    concatWrites [.write [97, 10], .read 10, .write [98, 10], .read 10] = [97, 10, 98, 10] ∧
    ([97, 10, 98, 10, 10] : List Nat) ≠ [97, 10, 98, 10] := by decide

/-- Claim C4 (counterexample): after the same capacity-3 run as in C1 the
`length` field (`occupied`) has underflowed to `2^64 − 1`, strictly exceeding
the capacity 3 in a reachable state. -/
theorem C4_counterexample :
    runOps (buffer_alloc 3 0 45) [.write [97, 10], .read 10, .write [98, 10], .read 10] =
      some (bugBufEnd, [], [97, 10, 98, 10, 10]) ∧
    bugBufEnd.size < bugBufEnd.length := by decide

/-- Claim C2 (counterexample): on the reachable state `bugBuf2` the front
line has raw length 1 (`liveBytes = "b\n"`) and the width is 2, so the claim
demands exactly `max 0 (2 − 1) = 1` fill byte before the content; the read
delivers 0 fill bytes (its pad part is `[]`), because the wrapped line's
length is mis-computed as 2. -/
theorem C2_counterexample :
    runOps (buffer_alloc 3 2 45) [.write [97, 10], .read 10, .write [98, 10]] =
      some (bugBuf2, [45], [97, 10]) ∧
    liveBytes bugBuf2 = [98, 10] ∧
    leftpad_read noFault 10 bugBuf2 =
      .ok ⟨3, 2, 45, [10, 10, 98], 2, W - 1, -1, []⟩ [] [98, 10, 10] ∧
    (0 : Nat) ≠ max 0 (2 - 1) := by decide

/-- Claim C9 (counterexample): from the reachable state `bugBuf`, draining
with one `read(10)` yields `"b\n\n"` while draining with `read(1)` calls
yields `"b\n"` — the two schedules disagree on a capacity that is not a
power of two. -/
theorem C9_counterexample :
    runOps (buffer_alloc 3 0 45) [.write [97, 10], .read 10, .write [98, 10]] =
      some (bugBuf, [], [97, 10]) ∧
    drainSched [10] bugBuf = some [98, 10, 10] ∧
    drainSched [1, 1, 1] bugBuf = some [98, 10] ∧
    ([98, 10, 10] : List Nat) ≠ [98, 10] := by decide

/-- Claim C5 (counterexample): a write of 2 bytes to a fresh capacity-1
session does not fit; `leftpad_write` (which never consults the blocking
flag and has no writer wait queue) fails immediately with `ENOBUFS` instead
of suspending and completing. -/
theorem C5_counterexample :
    leftpad_write noFault [10, 10] (buffer_alloc 1 0 45) =
      .err ENOBUFS (buffer_alloc 1 0 45) ∧
    ∀ b k, leftpad_write noFault [10, 10] (buffer_alloc 1 0 45) ≠ .ok b k := by
  have he : leftpad_write noFault [10, 10] (buffer_alloc 1 0 45) =
      .err ENOBUFS (buffer_alloc 1 0 45) := by decide
  refine ⟨he, fun b k h => ?_⟩
  rw [he] at h
  exact WriteResult.noConfusion h

/-- Claim C6 (counterexample): a non-blocking write to a session with
insufficient free space returns the error `ENOBUFS` (105), not the
would-block code `EAGAIN` (11) that `leftpad_read` uses; the state is left
unchanged. -/
theorem C6_counterexample :
    leftpad_write noFault [10, 10] (buffer_alloc 1 0 45) =
      .err ENOBUFS (buffer_alloc 1 0 45) ∧ ENOBUFS ≠ EAGAIN := by decide

/-- Claim C6 (amended): a write (blocking or not, any fault oracle) whose
byte count together with `occupied` exceeds the capacity returns `ENOBUFS`
synchronously with the session state unchanged. -/
theorem C6_amended (cf : Nat → Bool) (data : List Nat) (buf : Buffer)
    (h : buf.size < (buf.length + data.length) % W) :
    leftpad_write cf data buf = .err ENOBUFS buf := by
  unfold leftpad_write
  simp only [gt_iff_lt, if_pos h]

/-- Witness for C6: the amended theorem applied to the concrete full
capacity-1 session. -/
theorem C6_witness :
    leftpad_write noFault [10, 10] (buffer_alloc 1 0 45) =
      .err ENOBUFS (buffer_alloc 1 0 45) :=
  C6_amended noFault [10, 10] (buffer_alloc 1 0 45) (by decide)

/-- Claim C7 (amended): every error return of `leftpad_read` preserves the
whole state except possibly `padding_left` (which a failed `copy_to_user`
can leave fixed or zeroed), and every error return of `leftpad_write`
preserves the whole state except possibly not-yet-live `storage` bytes; all
errors other than `EFAULT` mutate nothing at all. -/
theorem C7_amended (cf : Nat → Bool) (n : Nat) (data : List Nat) (buf b : Buffer) (c : Nat) :
    (leftpad_read cf n buf = .err c b →
      b.size = buf.size ∧ b.width = buf.width ∧ b.fill = buf.fill ∧
      b.storage = buf.storage ∧ b.cursor = buf.cursor ∧ b.length = buf.length ∧
      b.newlines = buf.newlines ∧ (c ≠ EFAULT → b = buf)) ∧
    (leftpad_write cf data buf = .err c b →
      b.size = buf.size ∧ b.width = buf.width ∧ b.fill = buf.fill ∧
      b.cursor = buf.cursor ∧ b.length = buf.length ∧
      b.newlines = buf.newlines ∧ b.padding_left = buf.padding_left ∧ (c ≠ EFAULT → b = buf)) := by
  constructor
  · intro h
    unfold leftpad_read at h
    split at h
    · injection h with hc hb
      subst hc
      subst hb
      simp [EAGAIN, EFAULT]
    · dsimp only at h
      split_ifs at h <;> injection h with hc hb <;> subst hc <;> subst hb <;>
        simp [EAGAIN, EFAULT]
  · intro h
    unfold leftpad_write writeFinish at h
    dsimp only at h
    split_ifs at h <;> injection h with hc hb <;> subst hc <;> subst hb <;>
      simp [ENOBUFS, EFAULT]

/-- Witness for C7: the amended theorem applied to the concrete faulting
read of `preBuf`. -/
theorem C7_witness :
    faultedBuf.size = preBuf.size ∧ faultedBuf.width = preBuf.width ∧
    faultedBuf.fill = preBuf.fill ∧ faultedBuf.storage = preBuf.storage ∧
    faultedBuf.cursor = preBuf.cursor ∧ faultedBuf.length = preBuf.length ∧
    faultedBuf.newlines = preBuf.newlines ∧ (EFAULT ≠ EFAULT → faultedBuf = preBuf) :=
  (C7_amended (fun k => k == 0) 2 [] preBuf faultedBuf EFAULT).1 (by decide)

/-- Claim C7 (counterexample): a read of the reachable state `preBuf` whose
first user-space copy faults returns `EFAULT` having already fixed
`padding_left` from `-1` to `4`: partial mutation followed by an error. -/
theorem C7_counterexample :
    runOps (buffer_alloc 4 5 45) [.write [97, 10]] = some (preBuf, [], []) ∧
    leftpad_read (fun k => k == 0) 2 preBuf = .err EFAULT faultedBuf ∧
    faultedBuf.padding_left ≠ preBuf.padding_left := by decide

/-- Claim C8 (amended): reconfiguration is accepted in any padding state,
mid-line included: an in-range `SET_WIDTH`/`SET_FILL` updates only the
configuration field (the padding state of an in-flight line is untouched);
only out-of-range parameters are rejected (with `EINVAL`). -/
theorem C8_amended (buf : Buffer) (wparam fparam : Nat)
    (hw : wparam ≤ MAX_WIDTH) (hf : fparam ≤ 256) :
    leftpad_ioctl .setWidth wparam buf = .ok { buf with width := wparam } ∧
    leftpad_ioctl .setFill fparam buf = .ok { buf with fill := fparam % 256 } := by
  refine ⟨?_, ?_⟩
  · show (if wparam > MAX_WIDTH then IoctlResult.err EINVAL buf
        else IoctlResult.ok { buf with width := wparam }) =
      IoctlResult.ok { buf with width := wparam }
    rw [if_neg (by omega)]
  · show (if fparam > 256 then IoctlResult.err EINVAL buf
        else IoctlResult.ok { buf with fill := fparam % 256 }) =
      IoctlResult.ok { buf with fill := fparam % 256 }
    rw [if_neg (by omega)]

/-- Witness for C8: the amended theorem applied to `midBuf`, a reachable
state whose padding state is `Remaining 2` (mid-line). -/
theorem C8_witness :
    leftpad_ioctl .setWidth 3 midBuf = .ok { midBuf with width := 3 } ∧
    leftpad_ioctl .setFill 42 midBuf = .ok { midBuf with fill := 42 % 256 } :=
  C8_amended midBuf 3 42 (by decide) (by decide)

/-- Claim C8 (counterexample): on the reachable mid-line state `midBuf`
(`padding_left = 2 ≠ -1`), `SET_WIDTH 3` is accepted and changes the width —
it is not rejected with any error. -/
theorem C8_counterexample :
    runOps (buffer_alloc 4 5 45) [.write [97, 10], .read 2] = some (midBuf, [45, 45], []) ∧
    midBuf.padding_left ≠ -1 ∧
    leftpad_ioctl .setWidth 3 midBuf = .ok ⟨4, 3, 45, [97, 10, 0, 0], 0, 2, 2, [1]⟩ ∧
    ∀ c b, leftpad_ioctl .setWidth 3 midBuf ≠ .err c b := by
  have he : leftpad_ioctl .setWidth 3 midBuf =
      .ok ⟨4, 3, 45, [97, 10, 0, 0], 0, 2, 2, [1]⟩ := by decide
  refine ⟨by decide, by decide, he, fun c b h => ?_⟩
  rw [he] at h
  exact IoctlResult.noConfusion h

/-! ### Read characterisation and invariant preservation -/

theorem padGoal_nonneg {buf : Buffer} (d0 : Nat) (hInv : Inv buf) : 0 ≤ padGoal buf d0 := by
  obtain ⟨-, -, -, -, -, -, -, -, hplm, -, -⟩ := hInv
  unfold padGoal
  split_ifs with h
  · exact le_max_left _ _
  · omega

theorem padGoal_le_width {buf : Buffer} (d0 : Nat) (hInv : Inv buf) :
    padGoal buf d0 ≤ (buf.width : Int) := by
  obtain ⟨-, -, -, -, -, -, -, -, -, hplw, -⟩ := hInv
  unfold padGoal
  split_ifs with h
  · apply max_le <;> omega
  · exact hplw

theorem newlines_shape {buf : Buffer} {d0 : Nat} (hInv : Inv buf) (hfn : firstNl buf = some d0) :
    ∃ ds, nlDepths buf = d0 :: ds ∧
      buf.newlines = ((buf.cursor + d0) % buf.size) :: ds.map (fun d => (buf.cursor + d) % buf.size) := by
  obtain ⟨ds, hds⟩ := nlDepths_eq_cons hfn
  refine ⟨ds, hds, ?_⟩
  obtain ⟨-, -, -, -, -, -, -, hnl, -, -, -⟩ := hInv
  rw [hnl]
  unfold nlOffsets
  rw [hds]
  rfl

theorem read_ok_pad (buf : Buffer) (d0 n : Nat) (hInv : Inv buf) (hfn : firstNl buf = some d0)
    (hn : n < 2 ^ 63) (hle : (n : Int) ≤ padGoal buf d0) :
    leftpad_read noFault n buf =
      .ok { buf with padding_left := padGoal buf d0 - n } (List.replicate n buf.fill) [] := by
  have hpg0 := padGoal_nonneg d0 hInv
  have hpgw := padGoal_le_width d0 hInv
  obtain ⟨ds, hds, hnlc⟩ := newlines_shape hInv hfn
  obtain ⟨hd0len, hd0nl, hd0min⟩ := nlDepths_head hfn
  have hInv2 := hInv
  obtain ⟨hst, hpos, hdvd, hs62, hw62, hcur, hlen, hnl, hplm, hplw, hplnl⟩ := hInv2
  have hlle : line_length_of buf ((buf.cursor + d0) % buf.size) = d0 :=
    line_length_eq hInv (by omega)
  have hsw : sizeToSSize buf.width = buf.width := sizeToSSize_small (by omega)
  have hsd : sizeToSSize d0 = d0 := sizeToSSize_small (by omega)
  have hsn : sizeToSSize n = n := sizeToSSize_small hn
  have hpg : (if buf.padding_left = -1 then
      max 0 ((buf.width : Int) - (d0 : Int)) else buf.padding_left) = padGoal buf d0 := rfl
  unfold leftpad_read
  rw [hnlc]
  dsimp only
  rw [hlle, hsw, hsd, hsn, hpg]
  have hany : ∀ (l : List Nat), (l.any noFault) = false := by
    intro l
    simp [noFault]
  rw [hany]
  have hun : unsignedOf (padGoal buf d0) = (padGoal buf d0).toNat :=
    unsignedOf_small hpg0 (by omega)
  rw [hun]
  have hge : (padGoal buf d0).toNat ≥ n := by omega
  have hmin : min (n : Int) (padGoal buf d0) = (n : Int) := by omega
  rw [if_neg (by simp), if_pos hge, hmin]
  have hws : wrapS (padGoal buf d0 - (n : Int)) = padGoal buf d0 - n :=
    wrapS_small (by omega) (by omega)
  rw [hws]
  simp



theorem read_ok_content (buf : Buffer) (d0 n : Nat) (hInv : Inv buf) (hfn : firstNl buf = some d0)
    (hn : n < 2 ^ 63) (hgt : padGoal buf d0 < (n : Int)) :
    leftpad_read noFault n buf =
      .ok (afterRead buf (min (n - (padGoal buf d0).toNat) (d0 + 1))
          (decide (d0 + 1 ≤ n - (padGoal buf d0).toNat)))
        (List.replicate (padGoal buf d0).toNat buf.fill)
        ((liveBytes buf).take (min (n - (padGoal buf d0).toNat) (d0 + 1))) := by
  have hpg0 := padGoal_nonneg d0 hInv
  have hpgw := padGoal_le_width d0 hInv
  obtain ⟨ds, hds, hnlc⟩ := newlines_shape hInv hfn
  obtain ⟨hd0len, hd0nl, hd0min⟩ := nlDepths_head hfn
  have hInv2 := hInv
  obtain ⟨hst, hpos, hdvd, hs62, hw62, hcur, hlen, hnl, hplm, hplw, hplnl⟩ := hInv2
  have hlle : line_length_of buf ((buf.cursor + d0) % buf.size) = d0 :=
    line_length_eq hInv (by omega)
  have hsw : sizeToSSize buf.width = buf.width := sizeToSSize_small (by omega)
  have hsd : sizeToSSize d0 = d0 := sizeToSSize_small (by omega)
  have hsn : sizeToSSize n = n := sizeToSSize_small hn
  have hpg : (if buf.padding_left = -1 then
      max 0 ((buf.width : Int) - (d0 : Int)) else buf.padding_left) = padGoal buf d0 := rfl
  have hminle : min (n - (padGoal buf d0).toNat) (d0 + 1) ≤ d0 + 1 := min_le_right _ _
  have hrt : ringTake buf.storage buf.size buf.cursor
      (min (n - (padGoal buf d0).toNat) (d0 + 1)) =
      (liveBytes buf).take (min (n - (padGoal buf d0).toNat) (d0 + 1)) :=
    ringTake_eq _ hInv (by omega)
  have hlen2 : (buf.length + W - min (n - (padGoal buf d0).toNat) (d0 + 1)) % W =
      buf.length - min (n - (padGoal buf d0).toNat) (d0 + 1) := by
    rw [W_eq]
    omega
  unfold leftpad_read
  rw [hnlc]
  dsimp only
  rw [hlle, hsw, hsd, hsn, hpg]
  have hany : ∀ (l : List Nat), (l.any noFault) = false := by
    intro l
    simp [noFault]
  rw [hany]
  have hun : unsignedOf (padGoal buf d0) = (padGoal buf d0).toNat :=
    unsignedOf_small hpg0 (by omega)
  rw [hun]
  have hnge : ¬ ((padGoal buf d0).toNat ≥ n) := by omega
  have hmin : min (n : Int) (padGoal buf d0) = padGoal buf d0 := by omega
  rw [if_neg (by simp), if_neg hnge, hmin]
  simp only [noFault, Bool.or_self, ite_self, Bool.false_eq_true, if_false]
  rw [hrt, hlen2]
  simp only [afterRead, decide_eq_true_eq]
  rw [hnlc]
  simp



theorem read_err_noFault {n : Nat} {buf : Buffer} {c : Nat} {b : Buffer}
    (h : leftpad_read noFault n buf = .err c b) :
    buf.newlines = [] ∧ c = EAGAIN ∧ b = buf := by
  unfold leftpad_read at h
  cases hnl : buf.newlines with
  | nil =>
    rw [hnl] at h
    injection h with hc hb
    exact ⟨rfl, hc.symm, hb.symm⟩
  | cons ix rest =>
    rw [hnl] at h
    dsimp only at h
    have hany : ∀ (l : List Nat), (l.any noFault) = false := fun l => by simp [noFault]
    simp only [hany, Bool.false_eq_true, if_false] at h
    simp only [noFault, Bool.or_self, ite_self, Bool.false_eq_true, if_false] at h
    split_ifs at h

theorem map_add_left_cancel {a : Nat} {l1 l2 : List Nat}
    (h : l1.map (a + ·) = l2.map (a + ·)) : l1 = l2 := by
  exact List.map_injective_iff.mpr (add_right_injective a) h

theorem padGoal_of_ne (buf : Buffer) (d0 : Nat) (h : buf.padding_left ≠ -1) :
    padGoal buf d0 = buf.padding_left := by
  unfold padGoal
  rw [if_neg h]

theorem inv_read_pad_state {buf : Buffer} {d0 : Nat} (n : Nat) (hInv : Inv buf)
    (hfn : firstNl buf = some d0) (hle : (n : Int) ≤ padGoal buf d0) :
    Inv { buf with padding_left := padGoal buf d0 - n } ∧
    firstNl { buf with padding_left := padGoal buf d0 - n } = some d0 ∧
    liveBytes { buf with padding_left := padGoal buf d0 - n } = liveBytes buf ∧
    padGoal { buf with padding_left := padGoal buf d0 - n } d0 = padGoal buf d0 - n := by
  have hpg0 := padGoal_nonneg d0 hInv
  have hpgw := padGoal_le_width d0 hInv
  obtain ⟨ds, hds, hnlc⟩ := newlines_shape hInv hfn
  obtain ⟨hst, hpos, hdvd, hs62, hw62, hcur, hlen, hnl, hplm, hplw, hplnl⟩ := hInv
  refine ⟨⟨hst, hpos, hdvd, hs62, hw62, hcur, hlen, hnl,
    (by omega : (-1 : Int) ≤ padGoal buf d0 - n),
    (by omega : padGoal buf d0 - (n : Int) ≤ (buf.width : Int)), ?_⟩, hfn, rfl, ?_⟩
  · intro _
    rw [hnlc]
    simp
  · rw [padGoal_of_ne _ d0 (show ¬(padGoal buf d0 - (n : Int) = -1) by omega)]



theorem inv_afterRead_unfin {buf : Buffer} {d0 : Nat} (a : Nat) (hInv : Inv buf)
    (hfn : firstNl buf = some d0) (hale : a ≤ d0) :
    Inv (afterRead buf a false) ∧ firstNl (afterRead buf a false) = some (d0 - a) := by
  obtain ⟨ds, hds, hnlc⟩ := newlines_shape hInv hfn
  obtain ⟨hd0len, hd0nl, hd0min⟩ := nlDepths_head hfn
  obtain ⟨hst, hpos, hdvd, hs62, hw62, hcur, hlen, hnl, hplm, hplw, hplnl⟩ := hInv
  have ha_len : a ≤ buf.length := by omega
  have hdec := nlDepths_decomp buf a ha_len
  have hnilfront : ((List.range a).filter fun d => decide (byteAt buf d = NL)) = [] := by
    rw [List.filter_eq_nil_iff]
    intro e he
    simp only [List.mem_range] at he
    simp only [decide_eq_true_eq]
    exact hd0min e (by omega)
  rw [hnilfront, List.nil_append, hds] at hdec
  have hdec2 : (nlDepths (afterRead buf a false)).map (a + ·) = d0 :: ds := by
    rw [nlDepths_afterRead]
    exact hdec.symm
  have hcanon : buf.newlines = nlOffsets (afterRead buf a false) := by
    unfold nlOffsets
    rw [show (afterRead buf a false).cursor = (buf.cursor + a) % buf.size from rfl,
      show (afterRead buf a false).size = buf.size from rfl]
    calc buf.newlines = (d0 :: ds).map (fun d => (buf.cursor + d) % buf.size) := by
          rw [hnlc]
          rfl
      _ = ((nlDepths (afterRead buf a false)).map (a + ·)).map
            (fun d => (buf.cursor + d) % buf.size) := by rw [hdec2]
      _ = (nlDepths (afterRead buf a false)).map
            (fun d => ((buf.cursor + a) % buf.size + d) % buf.size) := by
          rw [List.map_map]
          apply List.map_congr_left
          intro x _
          simp only [Function.comp]
          rw [Nat.mod_add_mod]
          congr 1
          omega
  refine ⟨⟨hst, hpos, hdvd, hs62, hw62, Nat.mod_lt _ hpos,
    (by omega : buf.length - a ≤ buf.size), hcanon,
    (by omega : (-1 : Int) ≤ 0), (by omega : (0 : Int) ≤ (buf.width : Int)), ?_⟩, ?_⟩
  · intro _
    show buf.newlines ≠ []
    rw [hnlc]
    simp
  · rcases hF : nlDepths (afterRead buf a false) with - | ⟨f, fs⟩
    · rw [hF] at hdec2
      exact absurd hdec2 (by simp)
    · rw [hF] at hdec2
      have h1 : a + f = d0 := by
        have hh := congrArg List.head? hdec2
        simpa using hh
      show (nlDepths (afterRead buf a false)).head? = some (d0 - a)
      rw [hF]
      simp only [List.head?_cons, Option.some.injEq]
      omega

theorem inv_afterRead_fin {buf : Buffer} {d0 : Nat} (hInv : Inv buf)
    (hfn : firstNl buf = some d0) : Inv (afterRead buf (d0 + 1) true) := by
  obtain ⟨ds, hds, hnlc⟩ := newlines_shape hInv hfn
  obtain ⟨hd0len, hd0nl, hd0min⟩ := nlDepths_head hfn
  obtain ⟨hst, hpos, hdvd, hs62, hw62, hcur, hlen, hnl, hplm, hplw, hplnl⟩ := hInv
  have ha_len : d0 + 1 ≤ buf.length := by omega
  have hdec := nlDepths_decomp buf (d0 + 1) ha_len
  have hfront : ((List.range (d0 + 1)).filter fun d => decide (byteAt buf d = NL)) = [d0] := by
    rw [List.range_succ, List.filter_append]
    rw [show ((List.range d0).filter fun d => decide (byteAt buf d = NL)) = [] by
      rw [List.filter_eq_nil_iff]
      intro e he
      simp only [List.mem_range] at he
      simp only [decide_eq_true_eq]
      exact hd0min e he]
    simp [hd0nl]
  rw [hfront, hds] at hdec
  have hdec2 : ds = ((List.range (buf.length - (d0 + 1))).filter fun d =>
      decide (byteAt buf ((d0 + 1) + d) = NL)).map ((d0 + 1) + ·) := by
    simpa using hdec
  have hcanon : buf.newlines.tail = nlOffsets (afterRead buf (d0 + 1) true) := by
    unfold nlOffsets
    rw [nlDepths_afterRead,
      show (afterRead buf (d0 + 1) true).cursor = (buf.cursor + (d0 + 1)) % buf.size from rfl,
      show (afterRead buf (d0 + 1) true).size = buf.size from rfl]
    calc buf.newlines.tail = ds.map (fun d => (buf.cursor + d) % buf.size) := by
          rw [hnlc]
          rfl
      _ = (((List.range (buf.length - (d0 + 1))).filter fun d =>
            decide (byteAt buf ((d0 + 1) + d) = NL)).map ((d0 + 1) + ·)).map
            (fun d => (buf.cursor + d) % buf.size) := by rw [← hdec2]
      _ = ((List.range (buf.length - (d0 + 1))).filter fun d =>
            decide (byteAt buf ((d0 + 1) + d) = NL)).map
            (fun d => ((buf.cursor + (d0 + 1)) % buf.size + d) % buf.size) := by
          rw [List.map_map]
          apply List.map_congr_left
          intro x _
          simp only [Function.comp]
          rw [Nat.mod_add_mod]
          congr 1
          omega
  refine ⟨hst, hpos, hdvd, hs62, hw62, Nat.mod_lt _ hpos,
    (by omega : buf.length - (d0 + 1) ≤ buf.size), ?_,
    (by omega : (-1 : Int) ≤ -1), (by omega : (-1 : Int) ≤ (buf.width : Int)), ?_⟩
  · show buf.newlines.tail = nlOffsets (afterRead buf (d0 + 1) true)
    exact hcanon
  · intro h
    exact absurd rfl h

/-! ### Write characterisation -/

theorem getD_take (d : List Nat) (k i : Nat) (h : i < k) (h2 : i < d.length) :
    (d.take k).getD i 0 = d.getD i 0 := by
  rw [List.getD_eq_getElem _ _ (by simp; omega), List.getD_eq_getElem _ _ h2,
    List.getElem_take]

theorem getD_drop (d : List Nat) (k i : Nat) (h : k + i < d.length) :
    (d.drop k).getD i 0 = d.getD (k + i) 0 := by
  rw [List.getD_eq_getElem _ _ (by simp; omega), List.getD_eq_getElem _ _ h,
    List.getElem_drop]

theorem writeFinish_assemble (buf : Buffer) (data st2 : List Nat) (hInv : Inv buf)
    (hd : data.length ≤ 2 ^ 63) (hfit : buf.length + data.length ≤ buf.size)
    (P1 : st2.length = buf.size)
    (P2 : ∀ j, j < buf.length →
      st2.getD ((buf.cursor + j) % buf.size) 0 = buf.storage.getD ((buf.cursor + j) % buf.size) 0)
    (P3 : ∀ i, i < data.length →
      st2.getD ((buf.cursor + buf.length + i) % buf.size) 0 = data.getD i 0) :
    writeFinish buf data.length st2 = .ok (bufAfterWrite buf data st2) data.length ∧
      Inv (bufAfterWrite buf data st2) ∧
      liveBytes (bufAfterWrite buf data st2) = liveBytes buf ++ data := by
  obtain ⟨hst, hpos, hdvd, hs62, hw62, hcur, hlen, hnl, hplm, hplw, hplnl⟩ := hInv
  have hmodW : (buf.length + data.length) % W = buf.length + data.length := by
    rw [W_eq]; omega
  have hbyte_old : ∀ j, j < buf.length → byteAt (bufAfterWrite buf data st2) j = byteAt buf j := by
    intro j hj
    exact P2 j hj
  have hbyte_new : ∀ i, i < data.length →
      byteAt (bufAfterWrite buf data st2) (buf.length + i) = data.getD i 0 := by
    intro i hi
    show st2.getD ((buf.cursor + (buf.length + i)) % buf.size) 0 = data.getD i 0
    rw [show buf.cursor + (buf.length + i) = buf.cursor + buf.length + i by omega]
    exact P3 i hi
  have hdepths : nlDepths (bufAfterWrite buf data st2) =
      nlDepths buf ++ ((List.range data.length).filter fun i =>
        decide (data.getD i 0 = NL)).map (buf.length + ·) := by
    unfold nlDepths
    rw [show (bufAfterWrite buf data st2).length = buf.length + data.length from rfl]
    rw [List.range_add, List.filter_append, List.filter_map]
    congr 1
    · exact List.filter_congr fun d hdm => by
        simp only [List.mem_range] at hdm
        rw [hbyte_old d hdm]
    · rw [show ((fun d => decide (byteAt (bufAfterWrite buf data st2) d = NL)) ∘
          (buf.length + ·)) =
          fun i => decide (byteAt (bufAfterWrite buf data st2) (buf.length + i) = NL) from rfl]
      rw [List.filter_congr fun i him => by
        simp only [List.mem_range] at him
        rw [hbyte_new i him]]
  have hscan : scanNewlines buf data.length st2 =
      ((List.range data.length).filter fun i => decide (data.getD i 0 = NL)).map
        fun i => (buf.cursor + buf.length + i) % buf.size := by
    unfold scanNewlines
    have hfm : ∀ i ∈ List.range data.length,
        (fun i =>
          let off := ((buf.cursor + buf.length + i) % W) % buf.size
          if st2.getD off 0 = NL then some off else none) i =
        (fun i =>
          if data.getD i 0 = NL then some ((buf.cursor + buf.length + i) % buf.size)
          else none) i := by
      intro i him
      simp only [List.mem_range] at him
      dsimp only
      have hm3 : (buf.cursor + buf.length + i) % W = buf.cursor + buf.length + i := by
        rw [W_eq]; omega
      rw [hm3, P3 i him]
    rw [List.filterMap_congr hfm]
    exact filterMap_ite _ _ _
  refine ⟨?_, ?_, ?_⟩
  · unfold writeFinish bufAfterWrite
    rw [hmodW]
  · refine ⟨P1, hpos, hdvd, hs62, hw62, hcur,
      (by omega : buf.length + data.length ≤ buf.size), ?_, hplm, hplw, ?_⟩
    · show buf.newlines ++ scanNewlines buf data.length st2 = _
      unfold nlOffsets
      rw [hdepths, List.map_append, List.map_map, hscan, hnl]
      congr 1
      apply List.map_congr_left
      intro i _
      show (buf.cursor + buf.length + i) % buf.size = (buf.cursor + (buf.length + i)) % buf.size
      congr 1
      omega
    · intro hne hc
      have hold := hplnl hne
      have hc2 : buf.newlines ++ scanNewlines buf data.length st2 = [] := hc
      rw [List.append_eq_nil] at hc2
      exact hold hc2.1
  · unfold liveBytes
    rw [show (bufAfterWrite buf data st2).length = buf.length + data.length from rfl]
    rw [List.range_add, List.map_append, List.map_map]
    congr 1
    · apply List.map_congr_left
      intro j hj
      simp only [List.mem_range] at hj
      exact hbyte_old j hj
    · calc (List.range data.length).map (byteAt (bufAfterWrite buf data st2) ∘ (buf.length + ·)) =
          (List.range data.length).map (fun i => data.getD i 0) := by
            apply List.map_congr_left
            intro i him
            simp only [List.mem_range] at him
            exact hbyte_new i him
        _ = data := map_getD_range data



theorem write_char (buf : Buffer) (data : List Nat) (hInv : Inv buf) (hd : data.length ≤ 2 ^ 63) :
    (buf.size < buf.length + data.length ∧
      leftpad_write noFault data buf = .err ENOBUFS buf) ∨
    (buf.length + data.length ≤ buf.size ∧
      ∃ st2, leftpad_write noFault data buf = .ok (bufAfterWrite buf data st2) data.length ∧
        Inv (bufAfterWrite buf data st2) ∧
        liveBytes (bufAfterWrite buf data st2) = liveBytes buf ++ data) := by
  have hInv2 := hInv
  obtain ⟨hst, hpos, hdvd, hs62, hw62, hcur, hlen, hnl, hplm, hplw, hplnl⟩ := hInv2
  by_cases hfit : buf.length + data.length ≤ buf.size
  · right
    refine ⟨hfit, ?_⟩
    have hmW : (buf.length + data.length) % W = buf.length + data.length := by
      rw [W_eq]; omega
    have hm1 : (buf.cursor + buf.length + data.length) % W =
        buf.cursor + buf.length + data.length := by
      rw [W_eq]; omega
    have hm2 : (buf.cursor + buf.length) % W = buf.cursor + buf.length := by
      rw [W_eq]; omega
    unfold leftpad_write
    dsimp only
    rw [hmW, if_neg (by omega), hm1, hm2]
    simp only [noFault, Bool.false_eq_true, if_false]
    split_ifs with hc1 hc2
    · -- no wrap: one contiguous copy at cursor + length
      refine ⟨writeBytes buf.storage (buf.cursor + buf.length) data, ?_⟩
      refine writeFinish_assemble buf data _ hInv hd hfit ?_ ?_ ?_
      · rw [length_writeBytes]; exact hst
      · intro j hj
        rw [Nat.mod_eq_of_lt (show buf.cursor + j < buf.size by omega)]
        exact getD_writeBytes_lt data _ _ _ (by omega)
      · intro i hi
        rw [Nat.mod_eq_of_lt (show buf.cursor + buf.length + i < buf.size by omega)]
        exact getD_writeBytes_at data _ _ _ hi (by omega)
    · -- the write crosses the array end: two copies
      refine ⟨writeBytes (writeBytes buf.storage (buf.cursor + buf.length)
        (data.take (buf.size - (buf.cursor + buf.length)))) 0
        (data.drop (buf.size - (buf.cursor + buf.length))), ?_⟩
      have hchl : buf.size - (buf.cursor + buf.length) ≤ data.length := by omega
      have htake : (data.take (buf.size - (buf.cursor + buf.length))).length =
          buf.size - (buf.cursor + buf.length) := by
        rw [List.length_take]
        exact inf_eq_left.mpr hchl
      have hdroplen : (data.drop (buf.size - (buf.cursor + buf.length))).length =
          data.length - (buf.size - (buf.cursor + buf.length)) := List.length_drop _ _
      have hst1len : (writeBytes buf.storage (buf.cursor + buf.length)
          (data.take (buf.size - (buf.cursor + buf.length)))).length = buf.size := by
        rw [length_writeBytes]; exact hst
      refine writeFinish_assemble buf data _ hInv hd hfit ?_ ?_ ?_
      · rw [length_writeBytes]; exact hst1len
      · intro j hj
        rw [Nat.mod_eq_of_lt (show buf.cursor + j < buf.size by omega)]
        rw [getD_writeBytes_ge _ _ _ _ (by omega)]
        exact getD_writeBytes_lt _ _ _ _ (by omega)
      · intro i hi
        by_cases hic : i < buf.size - (buf.cursor + buf.length)
        · rw [Nat.mod_eq_of_lt (show buf.cursor + buf.length + i < buf.size by omega)]
          rw [getD_writeBytes_ge _ _ _ _ (by omega)]
          rw [getD_writeBytes_at _ _ _ _ (by omega) (by omega)]
          exact getD_take data _ i hic (by omega)
        · rw [Nat.mod_eq_sub_mod (by omega), Nat.mod_eq_of_lt (by omega)]
          have hat := getD_writeBytes_at
            (data.drop (buf.size - (buf.cursor + buf.length)))
            (writeBytes buf.storage (buf.cursor + buf.length)
              (data.take (buf.size - (buf.cursor + buf.length)))) 0
            (i - (buf.size - (buf.cursor + buf.length))) (by omega) (by omega)
          rw [show (0 : Nat) + (i - (buf.size - (buf.cursor + buf.length))) =
            buf.cursor + buf.length + i - buf.size by omega] at hat
          rw [hat]
          rw [getD_drop data _ _ (by omega)]
          congr 1
          omega
    · -- already wrapped: one contiguous copy in front of the cursor
      have hpos3 : (buf.cursor + buf.length) % buf.size =
          buf.cursor + buf.length - buf.size := by
        rw [Nat.mod_eq_sub_mod (by omega), Nat.mod_eq_of_lt (by omega)]
      rw [hpos3]
      refine ⟨writeBytes buf.storage (buf.cursor + buf.length - buf.size) data, ?_⟩
      refine writeFinish_assemble buf data _ hInv hd hfit ?_ ?_ ?_
      · rw [length_writeBytes]; exact hst
      · intro j hj
        by_cases hcj : buf.cursor + j < buf.size
        · rw [Nat.mod_eq_of_lt hcj]
          exact getD_writeBytes_ge data _ _ _ (by omega)
        · rw [Nat.mod_eq_sub_mod (by omega), Nat.mod_eq_of_lt (by omega)]
          exact getD_writeBytes_lt data _ _ _ (by omega)
      · intro i hi
        rw [Nat.mod_eq_sub_mod (by omega), Nat.mod_eq_of_lt (by omega)]
        have hat := getD_writeBytes_at data buf.storage
          (buf.cursor + buf.length - buf.size) i hi (by omega)
        rw [show buf.cursor + buf.length - buf.size + i =
          buf.cursor + buf.length + i - buf.size by omega] at hat
        exact hat
  · left
    refine ⟨by omega, ?_⟩
    unfold leftpad_write
    dsimp only
    rw [show (buf.length + data.length) % W = buf.length + data.length from by
      rw [W_eq]; omega]
    rw [if_pos (by omega)]

/-! ### Trace semantics -/

theorem newlines_nil_of_firstNl_none {buf : Buffer} (hInv : Inv buf)
    (hfn : firstNl buf = none) : buf.newlines = [] := by
  obtain ⟨-, -, -, -, -, -, -, hnl, -, -, -⟩ := hInv
  rw [hnl]
  unfold nlOffsets
  rw [show nlDepths buf = [] from List.head?_eq_none_iff.mp hfn]
  rfl

theorem read_ok_spec {buf b2 : Buffer} {n : Nat} {pads content : List Nat}
    (hInv : Inv buf) (hn : n < 2 ^ 63)
    (h : leftpad_read noFault n buf = .ok b2 pads content) :
    Inv b2 ∧ content ++ liveBytes b2 = liveBytes buf := by
  cases hfn : firstNl buf with
  | none =>
    have hnl0 := newlines_nil_of_firstNl_none hInv hfn
    unfold leftpad_read at h
    rw [hnl0] at h
    exact ReadResult.noConfusion h
  | some d0 =>
    obtain ⟨hd0len, hd0nl, hd0min⟩ := nlDepths_head hfn
    have hpg0 := padGoal_nonneg d0 hInv
    by_cases hcase : (n : Int) ≤ padGoal buf d0
    · rw [read_ok_pad buf d0 n hInv hfn hn hcase] at h
      injection h with h1 h2 h3
      obtain ⟨hi, -, hl, -⟩ := inv_read_pad_state n hInv hfn hcase
      rw [← h1, ← h3]
      simp only [List.nil_append]
      exact ⟨hi, hl⟩
    · push_neg at hcase
      rw [read_ok_content buf d0 n hInv hfn hn hcase] at h
      injection h with h1 h2 h3
      have hale : min (n - (padGoal buf d0).toNat) (d0 + 1) ≤ buf.length := by
        have := min_le_right (n - (padGoal buf d0).toNat) (d0 + 1)
        omega
      have hib2 : Inv (afterRead buf (min (n - (padGoal buf d0).toNat) (d0 + 1))
          (decide (d0 + 1 ≤ n - (padGoal buf d0).toNat))) := by
        by_cases hfin : d0 + 1 ≤ n - (padGoal buf d0).toNat
        · rw [decide_eq_true hfin, min_eq_right (by omega)]
          exact inv_afterRead_fin hInv hfn
        · rw [decide_eq_false hfin]
          exact (inv_afterRead_unfin _ hInv hfn (by omega)).1
      rw [← h1, ← h3]
      refine ⟨hib2, ?_⟩
      rw [liveBytes_afterRead _ _ _ hale]
      exact List.take_append_drop _ _

theorem Inv_alloc (size width fill : Nat) (h1 : 0 < size) (h2 : W % size = 0)
    (h3 : size < 2 ^ 62) (h4 : width < 2 ^ 62) : Inv (buffer_alloc size width fill) := by
  refine ⟨?_, h1, h2, h3, h4, h1, Nat.zero_le _, rfl, ?_, ?_, ?_⟩
  · simp [buffer_alloc]
  · show (-1 : Int) ≤ -1
    omega
  · show (-1 : Int) ≤ (width : Int)
    omega
  · intro hne
    exact absurd rfl hne

theorem runOps_spec (ops : List Op) : ∀ (buf : Buffer), Inv buf →
    (∀ o ∈ ops, opSmall o) → ∀ bufF pads content,
    runOps buf ops = some (bufF, pads, content) →
    Inv bufF ∧ content ++ liveBytes bufF = liveBytes buf ++ concatWrites ops := by
  induction ops with
  | nil =>
    intro buf hInv _ bufF pads content hrun
    unfold runOps at hrun
    simp only [Option.some.injEq, Prod.mk.injEq] at hrun
    obtain ⟨h1, -, h3⟩ := hrun
    subst h1
    refine ⟨hInv, ?_⟩
    rw [← h3]
    simp [concatWrites]
  | cons op ops ih =>
    intro buf hInv hsmall bufF pads content hrun
    have hsmallop : opSmall op := hsmall op (by simp)
    have hsmallops : ∀ o ∈ ops, opSmall o := fun o ho => hsmall o (by simp [ho])
    cases op with
    | write data =>
      unfold runOps at hrun
      rcases write_char buf data hInv hsmallop with ⟨hover, herr⟩ | ⟨hfit, st2, hok, hinv2, hlive⟩
      · rw [herr] at hrun
        exact absurd hrun (by simp)
      · rw [hok] at hrun
        obtain ⟨hi, hc⟩ := ih _ hinv2 hsmallops _ _ _ hrun
        refine ⟨hi, ?_⟩
        rw [hc, hlive]
        simp [concatWrites, opData]
    | read n =>
      unfold runOps at hrun
      cases hr : leftpad_read noFault n buf with
      | err c b =>
        rw [hr] at hrun
        obtain ⟨hnl0, hc0, hb0⟩ := read_err_noFault hr
        subst hb0
        obtain ⟨hi, hc⟩ := ih _ hInv hsmallops _ _ _ hrun
        refine ⟨hi, ?_⟩
        rw [hc]
        simp [concatWrites, opData]
      | ok b2 pads2 content2 =>
        rw [hr] at hrun
        dsimp only at hrun
        cases hrun2 : runOps b2 ops with
        | none =>
          rw [hrun2] at hrun
          exact absurd hrun (by simp)
        | some r =>
          rw [hrun2] at hrun
          simp only [Option.map_some', Option.some.injEq, Prod.mk.injEq] at hrun
          obtain ⟨hrb, -, hrc⟩ := hrun
          obtain ⟨hspec1, hspec2⟩ := read_ok_spec hInv hsmallop hr
          obtain ⟨hi, hc⟩ := ih _ hspec1 hsmallops r.1 r.2.1 r.2.2 (by rw [hrun2])
          subst hrb
          refine ⟨hi, ?_⟩
          rw [← hrc]
          calc (content2 ++ r.2.2) ++ liveBytes r.1 = content2 ++ (r.2.2 ++ liveBytes r.1) := by
                rw [List.append_assoc]
            _ = content2 ++ (liveBytes b2 ++ concatWrites ops) := by rw [hc]
            _ = (content2 ++ liveBytes b2) ++ concatWrites ops := by rw [List.append_assoc]
            _ = liveBytes buf ++ concatWrites (Op.read n :: ops) := by
                rw [hspec2]
                simp [concatWrites, opData]

/-- Claim C1 (amended): for a session whose capacity is a power of two (a
divisor of `2^64`; the source's `size_t` remainder is exact only then, see
C3), every single-writer/single-reader trace in which all writes succeed and
the session ends fully drained delivers, as the concatenation of the reads'
content bytes (the delivered bytes with the inserted fill bytes stripped),
exactly the concatenation of the written byte sequences in write order. -/
theorem C1_amended (size width fill : Nat) (ops : List Op)
    (h1 : 0 < size) (h2 : W % size = 0) (h3 : size < 2 ^ 62) (h4 : width < 2 ^ 62)
    (hops : ∀ o ∈ ops, opSmall o) (bufF : Buffer) (pads content : List Nat)
    (hrun : runOps (buffer_alloc size width fill) ops = some (bufF, pads, content))
    (hdrained : bufF.length = 0) :
    content = concatWrites ops := by
  obtain ⟨hi, hc⟩ := runOps_spec ops _ (Inv_alloc size width fill h1 h2 h3 h4) hops _ _ _ hrun
  have hlive0 : liveBytes bufF = [] := by
    unfold liveBytes
    rw [hdrained]
    rfl
  have hlivei : liveBytes (buffer_alloc size width fill) = [] := rfl
  rw [hlive0, hlivei, List.append_nil, List.nil_append] at hc
  exact hc

/-- Witness for C1: the amended theorem applied to a concrete capacity-4
session writing `"ab\n"` and draining it with one `read(10)`. -/
theorem C1_witness :
    ([97, 98, 10] : List Nat) = concatWrites [Op.write [97, 98, 10], Op.read 10] :=
  C1_amended 4 3 45 [Op.write [97, 98, 10], Op.read 10] (by decide) (by decide)
    (by decide) (by decide) (by decide) ⟨4, 3, 45, [97, 98, 10, 0], 3, 0, -1, []⟩
    [45] [97, 98, 10] (by decide) (by decide)

/-- Claim C4 (amended): for a power-of-two capacity, after any fault-free
trace from `buffer_alloc` the occupied count never exceeds the capacity and
the cursor stays in range; moreover a further successful write only appends
to the live (unread) bytes — it never overwrites one — and a reconfiguration
leaves storage, cursor, occupied, newline index and padding state untouched. -/
theorem C4_amended (size width fill : Nat) (ops : List Op)
    (h1 : 0 < size) (h2 : W % size = 0) (h3 : size < 2 ^ 62) (h4 : width < 2 ^ 62)
    (hops : ∀ o ∈ ops, opSmall o) (bufF : Buffer) (pads content : List Nat)
    (hrun : runOps (buffer_alloc size width fill) ops = some (bufF, pads, content)) :
    bufF.length ≤ bufF.size ∧ bufF.cursor < bufF.size ∧
    (∀ (data : List Nat) (buf2 : Buffer) (k : Nat), data.length ≤ 2 ^ 63 →
      leftpad_write noFault data bufF = .ok buf2 k →
      liveBytes buf2 = liveBytes bufF ++ data) ∧
    (∀ (num : IoctlNum) (param : Nat) (b : Buffer), leftpad_ioctl num param bufF = .ok b →
      b.storage = bufF.storage ∧ b.cursor = bufF.cursor ∧ b.length = bufF.length ∧
      b.newlines = bufF.newlines ∧ b.padding_left = bufF.padding_left) := by
  obtain ⟨hi, -⟩ := runOps_spec ops _ (Inv_alloc size width fill h1 h2 h3 h4) hops _ _ _ hrun
  have hi2 := hi
  obtain ⟨-, -, -, -, -, hcur, hlen, -, -, -, -⟩ := hi2
  refine ⟨hlen, hcur, ?_, ?_⟩
  · intro data buf2 k hd hok
    rcases write_char bufF data hi hd with ⟨-, herr⟩ | ⟨-, st2, hok2, -, hlive⟩
    · rw [herr] at hok
      exact WriteResult.noConfusion hok
    · rw [hok2] at hok
      injection hok with hb hk
      rw [← hb]
      exact hlive
  · intro num param b hok
    cases num with
    | setWidth =>
      unfold leftpad_ioctl at hok
      dsimp only at hok
      split_ifs at hok
      injection hok with hb
      rw [← hb]
      exact ⟨rfl, rfl, rfl, rfl, rfl⟩
    | setFill =>
      unfold leftpad_ioctl at hok
      dsimp only at hok
      split_ifs at hok
      injection hok with hb
      rw [← hb]
      exact ⟨rfl, rfl, rfl, rfl, rfl⟩
    | other =>
      unfold leftpad_ioctl at hok
      dsimp only at hok
      exact IoctlResult.noConfusion hok

/-- Witness for C4: the amended theorem applied to a concrete drained
capacity-4 session, a follow-up write of one byte and a reconfiguration. -/
theorem C4_witness :
    (Buffer.length ⟨4, 3, 45, [97, 98, 10, 0], 3, 0, -1, []⟩ ≤ 4 ∧
      Buffer.cursor ⟨4, 3, 45, [97, 98, 10, 0], 3, 0, -1, []⟩ < 4) ∧
    liveBytes ⟨4, 3, 45, [97, 98, 10, 10], 3, 1, -1, [3]⟩ =
      liveBytes ⟨4, 3, 45, [97, 98, 10, 0], 3, 0, -1, []⟩ ++ [10] ∧
    Buffer.padding_left ⟨4, 5, 45, [97, 98, 10, 0], 3, 0, -1, []⟩ =
      Buffer.padding_left ⟨4, 3, 45, [97, 98, 10, 0], 3, 0, -1, []⟩ := by
  have H := C4_amended 4 3 45 [Op.write [97, 98, 10], Op.read 10] (by decide) (by decide)
    (by decide) (by decide) (by decide) ⟨4, 3, 45, [97, 98, 10, 0], 3, 0, -1, []⟩
    [45] [97, 98, 10] (by decide)
  refine ⟨⟨H.1, H.2.1⟩, ?_, ?_⟩
  · exact H.2.2.1 [10] ⟨4, 3, 45, [97, 98, 10, 10], 3, 1, -1, [3]⟩ 1 (by decide) (by decide)
  · exact (H.2.2.2 IoctlNum.setWidth 5 ⟨4, 5, 45, [97, 98, 10, 0], 3, 0, -1, []⟩
      (by decide)).2.2.2.2

/-- Claim C5 (amended): a write whose bytes do not fit in the free space
fails synchronously with `ENOBUFS` writing nothing — the source has no
writer wait queue and never consults the blocking flag, so in blocking mode
it errors rather than suspending; a write whose bytes do fit is accepted in
full, appending every byte exactly once after the live bytes. -/
theorem C5_amended (buf : Buffer) (data : List Nat) (hInv : Inv buf)
    (hd : data.length ≤ 2 ^ 63) :
    (buf.size < buf.length + data.length →
      leftpad_write noFault data buf = .err ENOBUFS buf) ∧
    (buf.length + data.length ≤ buf.size →
      ∃ buf2, leftpad_write noFault data buf = .ok buf2 data.length ∧
        liveBytes buf2 = liveBytes buf ++ data) := by
  rcases write_char buf data hInv hd with ⟨hover, herr⟩ | ⟨hfit, st2, hok, -, hlive⟩
  · exact ⟨fun _ => herr, fun hfit2 => by omega⟩
  · exact ⟨fun hover2 => by omega, fun _ => ⟨_, hok, hlive⟩⟩

/-- Witness for C5: the amended theorem applied to `preBuf` with an
overflowing 3-byte write and with a fitting 1-byte write. -/
theorem C5_witness :
    leftpad_write noFault [1, 2, 3] preBuf = .err ENOBUFS preBuf ∧
    ∃ buf2, leftpad_write noFault [10] preBuf = .ok buf2 1 ∧
      liveBytes buf2 = liveBytes preBuf ++ [10] :=
  ⟨(C5_amended preBuf [1, 2, 3] (by decide) (by decide)).1 (by decide),
   (C5_amended preBuf [10] (by decide) (by decide)).2 (by decide)⟩

theorem drainLine_pads (ns : List Nat) : ∀ (buf : Buffer) (d0 p : Nat),
    Inv buf → firstNl buf = some d0 → (∀ n ∈ ns, n < 2 ^ 63) →
    drainLine ns buf = some p → (p : Int) = padGoal buf d0 := by
  induction ns with
  | nil =>
    intro buf d0 p _ _ _ h
    exact absurd h (by simp [drainLine])
  | cons n ns ih =>
    intro buf d0 p hInv hfn hsmall h
    have hn : n < 2 ^ 63 := hsmall n (by simp)
    have hnsmall : ∀ m ∈ ns, m < 2 ^ 63 := fun m hm => hsmall m (by simp [hm])
    have hpg0 := padGoal_nonneg d0 hInv
    obtain ⟨hd0len, -, -⟩ := nlDepths_head hfn
    obtain ⟨ds, hds, hnlc⟩ := newlines_shape hInv hfn
    unfold drainLine at h
    by_cases hcase : (n : Int) ≤ padGoal buf d0
    · rw [read_ok_pad buf d0 n hInv hfn hn hcase] at h
      dsimp only at h
      rw [if_neg (by simp)] at h
      obtain ⟨hi2, hfn2, -, hpg2⟩ := inv_read_pad_state n hInv hfn hcase
      cases h2 : drainLine ns { buf with padding_left := padGoal buf d0 - ↑n } with
      | none =>
        rw [h2] at h
        exact absurd h (by simp)
      | some q =>
        rw [h2] at h
        simp only [Option.map_some', Option.some.injEq, List.length_replicate] at h
        have hq := ih _ d0 q hi2 hfn2 hnsmall h2
        rw [hpg2] at hq
        omega
    · push_neg at hcase
      rw [read_ok_content buf d0 n hInv hfn hn hcase] at h
      dsimp only at h
      by_cases hfin : d0 + 1 ≤ n - (padGoal buf d0).toNat
      · rw [decide_eq_true hfin, min_eq_right (by omega)] at h
        rw [if_pos (by
          show (afterRead buf (d0 + 1) true).newlines.length < buf.newlines.length
          show buf.newlines.tail.length < buf.newlines.length
          rw [hnlc]
          simp)] at h
        simp only [Option.some.injEq, List.length_replicate] at h
        omega
      · rw [decide_eq_false hfin, min_eq_left (by omega)] at h
        rw [if_neg (by
          show ¬ (afterRead buf (n - (padGoal buf d0).toNat) false).newlines.length <
            buf.newlines.length
          show ¬ buf.newlines.length < buf.newlines.length
          omega)] at h
        obtain ⟨hi2, hfn2⟩ := inv_afterRead_unfin (n - (padGoal buf d0).toNat) hInv hfn
          (by omega)
        cases h2 : drainLine ns (afterRead buf (n - (padGoal buf d0).toNat) false) with
        | none =>
          rw [h2] at h
          exact absurd h (by simp)
        | some q =>
          rw [h2] at h
          simp only [Option.map_some', Option.some.injEq, List.length_replicate] at h
          have hq := ih _ _ q hi2 hfn2 hnsmall h2
          rw [padGoal_of_ne _ _ (by
            show (0 : Int) ≠ -1
            omega)] at hq
          have : (q : Int) = 0 := hq
          omega

/-- Claim C2 (amended): for a well-formed power-of-two-capacity state (where
the computed line length is the true raw length `L` of the front line, the
depth of its first newline), the total number of fill bytes delivered while
draining that line — over any sequence of read sizes, however the drain is
split — is exactly `width - L` (natural subtraction, i.e. `max 0 (Wd − L)`),
the padding fixed the instant draining begins. -/
theorem C2_amended (buf : Buffer) (d0 : Nat) (ns : List Nat) (p : Nat)
    (hInv : Inv buf) (hfn : firstNl buf = some d0) (hpl : buf.padding_left = -1)
    (hns : ∀ n ∈ ns, n < 2 ^ 63) (hdrain : drainLine ns buf = some p) :
    p = buf.width - d0 := by
  have h := drainLine_pads ns buf d0 p hInv hfn hns hdrain
  unfold padGoal at h
  rw [if_pos hpl] at h
  omega

/-- Witness for C2: the amended theorem applied to a capacity-8 width-5
session holding the line `"ab\n"` (raw length 2), drained with reads of
sizes 1,1,1,10: the three 1-byte reads deliver the three fill bytes. -/
theorem C2_witness : (3 : Nat) = 5 - 2 :=
  C2_amended ⟨8, 5, 45, [97, 98, 10, 0, 0, 0, 0, 0], 0, 3, -1, [2]⟩ 2 [1, 1, 1, 10] 3
    (by decide) (by decide) (by decide) (by decide) (by decide)

/-- Claim C10: a single read call serves at most the front line.  With a
request large enough for the whole padded line, the call delivers exactly
the line's padding, content and terminator and pops exactly that line's
newline record — it returns even when the request is larger and further
complete lines are already buffered (they stay in the index for the next
call).  And for any request size, the content delivered never extends past
the front line's terminator. -/
theorem C10_one_line (buf : Buffer) (d0 n : Nat) (hInv : Inv buf)
    (hfn : firstNl buf = some d0) (hpl : buf.padding_left = -1)
    (hn : n < 2 ^ 63) (hbig : buf.width - d0 + (d0 + 1) ≤ n) :
    leftpad_read noFault n buf =
      .ok (afterRead buf (d0 + 1) true)
        (List.replicate (buf.width - d0) buf.fill)
        ((liveBytes buf).take (d0 + 1)) ∧
    (afterRead buf (d0 + 1) true).newlines = buf.newlines.tail ∧
    (∀ (m : Nat), m < 2 ^ 63 → ∀ b2 pads cs,
      leftpad_read noFault m buf = .ok b2 pads cs → cs.length ≤ d0 + 1) := by
  have hpg0 := padGoal_nonneg d0 hInv
  have hpg : padGoal buf d0 = ((buf.width - d0 : Nat) : Int) := by
    unfold padGoal
    rw [if_pos hpl]
    omega
  refine ⟨?_, rfl, ?_⟩
  · have hgt : padGoal buf d0 < (n : Int) := by
      rw [hpg]
      omega
    have h := read_ok_content buf d0 n hInv hfn hn hgt
    rw [hpg] at h
    simp only [Int.toNat_natCast] at h
    rw [min_eq_right (by omega), decide_eq_true (by omega)] at h
    exact h
  · intro m hm b2 pads cs hr
    by_cases hcase : (m : Int) ≤ padGoal buf d0
    · rw [read_ok_pad buf d0 m hInv hfn hm hcase] at hr
      injection hr with h1 h2 h3
      rw [← h3]
      simp
    · push_neg at hcase
      rw [read_ok_content buf d0 m hInv hfn hm hcase] at hr
      injection hr with h1 h2 h3
      rw [← h3]
      have := List.length_take (min (m - (padGoal buf d0).toNat) (d0 + 1)) (liveBytes buf)
      have hmin := min_le_right (m - (padGoal buf d0).toNat) (d0 + 1)
      omega

/-- Witness for C10: a capacity-8 width-3 session holding two complete lines
`"a\n"` and `"b\n"`; a `read(10)` delivers only the first padded line
(`"-" "-" "a" "\n"`, 4 bytes though 10 were requested), leaves the second
line's newline record buffered, and a 1-byte read delivers no content byte. -/
theorem C10_witness :
    leftpad_read noFault 10 ⟨8, 3, 45, [97, 10, 98, 10, 0, 0, 0, 0], 0, 4, -1, [1, 3]⟩ =
      .ok (afterRead ⟨8, 3, 45, [97, 10, 98, 10, 0, 0, 0, 0], 0, 4, -1, [1, 3]⟩ (1 + 1) true)
        (List.replicate (3 - 1) 45)
        ((liveBytes ⟨8, 3, 45, [97, 10, 98, 10, 0, 0, 0, 0], 0, 4, -1, [1, 3]⟩).take (1 + 1)) ∧
    (afterRead ⟨8, 3, 45, [97, 10, 98, 10, 0, 0, 0, 0], 0, 4, -1, [1, 3]⟩ (1 + 1) true).newlines =
      ([1, 3] : List Nat).tail ∧
    ([] : List Nat).length ≤ 1 + 1 := by
  have H := C10_one_line ⟨8, 3, 45, [97, 10, 98, 10, 0, 0, 0, 0], 0, 4, -1, [1, 3]⟩ 1 10
    (by decide) (by decide) (by decide) (by decide) (by decide)
  exact ⟨H.1, H.2.1, H.2.2 1 (by decide)
    ⟨8, 3, 45, [97, 10, 98, 10, 0, 0, 0, 0], 0, 4, 1, [1, 3]⟩ [45] [] (by decide)⟩

theorem specOf_of_newlines_nil {buf : Buffer} (hnl : buf.newlines = []) : specOf buf = [] := by
  unfold specOf
  rw [hnl]
  show bigDrain 1 buf = []
  unfold bigDrain
  rw [show leftpad_read noFault (buf.width + buf.size + 1) buf = .err EAGAIN buf from by
    unfold leftpad_read
    rw [hnl]]

theorem specOf_step {buf : Buffer} {d0 : Nat} (hInv : Inv buf) (hfn : firstNl buf = some d0) :
    specOf buf = List.replicate (padGoal buf d0).toNat buf.fill ++
      ((liveBytes buf).take (d0 + 1) ++ specOf (afterRead buf (d0 + 1) true)) := by
  obtain ⟨ds, hds, hnlc⟩ := newlines_shape hInv hfn
  obtain ⟨hd0len, -, -⟩ := nlDepths_head hfn
  have hInv2 := hInv
  obtain ⟨hst, hpos, hdvd, hs62, hw62, hcur, hlen, hnl, hplm, hplw, hplnl⟩ := hInv2
  have hpg0 := padGoal_nonneg d0 hInv
  have hpgw := padGoal_le_width d0 hInv
  have hbign : buf.width + buf.size + 1 < 2 ^ 63 := by omega
  have hbig : padGoal buf d0 < ((buf.width + buf.size + 1 : Nat) : Int) := by
    push_cast
    omega
  have hread := read_ok_content buf d0 (buf.width + buf.size + 1) hInv hfn hbign hbig
  have htn : (padGoal buf d0).toNat ≤ buf.width := by omega
  have hminr : min ((buf.width + buf.size + 1) - (padGoal buf d0).toNat) (d0 + 1) = d0 + 1 := by
    apply min_eq_right
    omega
  rw [hminr, decide_eq_true (show d0 + 1 ≤ (buf.width + buf.size + 1) - (padGoal buf d0).toNat
    by omega)] at hread
  have htail : (afterRead buf (d0 + 1) true).newlines.length = ds.length := by
    rw [show (afterRead buf (d0 + 1) true).newlines = buf.newlines.tail from rfl, hnlc]
    simp
  have hfA : specOf (afterRead buf (d0 + 1) true) =
      bigDrain (ds.length + 1) (afterRead buf (d0 + 1) true) := by
    unfold specOf
    rw [htail]
  rw [hfA]
  unfold specOf
  rw [hnlc]
  simp only [List.length_cons, List.length_map]
  rw [bigDrain, hread]
  dsimp only
  rw [List.append_assoc]



theorem read_coherence {buf b2 : Buffer} {n : Nat} {pads cs : List Nat}
    (hInv : Inv buf) (hn : n < 2 ^ 63)
    (h : leftpad_read noFault n buf = .ok b2 pads cs) :
    pads ++ (cs ++ specOf b2) = specOf buf := by
  cases hfn : firstNl buf with
  | none =>
    have hnl0 := newlines_nil_of_firstNl_none hInv hfn
    unfold leftpad_read at h
    rw [hnl0] at h
    exact ReadResult.noConfusion h
  | some d0 =>
    obtain ⟨hd0len, -, -⟩ := nlDepths_head hfn
    have hpg0 := padGoal_nonneg d0 hInv
    have hpgw := padGoal_le_width d0 hInv
    by_cases hcase : (n : Int) ≤ padGoal buf d0
    · rw [read_ok_pad buf d0 n hInv hfn hn hcase] at h
      injection h with h1 h2 h3
      obtain ⟨hi2, hfn2, hl2, hpg2⟩ := inv_read_pad_state n hInv hfn hcase
      rw [← h1, ← h2, ← h3]
      rw [specOf_step hi2 hfn2, specOf_step hInv hfn, hpg2, hl2]
      rw [show afterRead { buf with padding_left := padGoal buf d0 - (n : Int) } (d0 + 1) true =
        afterRead buf (d0 + 1) true from rfl]
      rw [show ({ buf with padding_left := padGoal buf d0 - (n : Int) } : Buffer).fill = buf.fill
        from rfl]
      rw [List.nil_append, ← List.append_assoc, ← List.replicate_add]
      rw [show n + (padGoal buf d0 - (n : Int)).toNat = (padGoal buf d0).toNat from by omega]
    · push_neg at hcase
      rw [read_ok_content buf d0 n hInv hfn hn hcase] at h
      injection h with h1 h2 h3
      rw [← h1, ← h2, ← h3]
      by_cases hfin : d0 + 1 ≤ n - (padGoal buf d0).toNat
      · rw [decide_eq_true hfin, min_eq_right (by omega)]
        rw [specOf_step hInv hfn]
      · rw [decide_eq_false hfin, min_eq_left (by omega)]
        obtain ⟨hi2, hfn2⟩ := inv_afterRead_unfin (n - (padGoal buf d0).toNat) hInv hfn
          (by omega)
        rw [specOf_step hi2 hfn2, specOf_step hInv hfn]
        rw [padGoal_of_ne _ _ (show (afterRead buf (n - (padGoal buf d0).toNat) false).padding_left ≠ -1
          from by
            show (0 : Int) ≠ -1
            omega)]
        rw [show ((afterRead buf (n - (padGoal buf d0).toNat) false).padding_left).toNat = 0
          from rfl]
        rw [show (afterRead buf (n - (padGoal buf d0).toNat) false).fill = buf.fill from rfl]
        simp only [List.replicate_zero, List.nil_append]
        rw [liveBytes_afterRead _ _ _ (by omega)]
        have hrec : afterRead (afterRead buf (n - (padGoal buf d0).toNat) false)
            (d0 - (n - (padGoal buf d0).toNat) + 1) true = afterRead buf (d0 + 1) true := by
          show Buffer.mk buf.size buf.width buf.fill buf.storage
            (((buf.cursor + (n - (padGoal buf d0).toNat)) % buf.size +
              (d0 - (n - (padGoal buf d0).toNat) + 1)) % buf.size)
            (buf.length - (n - (padGoal buf d0).toNat) - (d0 - (n - (padGoal buf d0).toNat) + 1))
            (-1) buf.newlines.tail =
            Buffer.mk buf.size buf.width buf.fill buf.storage
            ((buf.cursor + (d0 + 1)) % buf.size) (buf.length - (d0 + 1)) (-1) buf.newlines.tail
          rw [Nat.mod_add_mod,
            show buf.cursor + (n - (padGoal buf d0).toNat) +
              (d0 - (n - (padGoal buf d0).toNat) + 1) = buf.cursor + (d0 + 1) by omega,
            show buf.length - (n - (padGoal buf d0).toNat) -
              (d0 - (n - (padGoal buf d0).toNat) + 1) = buf.length - (d0 + 1) by omega]
        rw [hrec]
        rw [← List.append_assoc (List.take (n - (padGoal buf d0).toNat) (liveBytes buf)),
          ← List.take_add,
          show n - (padGoal buf d0).toNat + (d0 - (n - (padGoal buf d0).toNat) + 1) = d0 + 1
            by omega]

theorem drainSched_spec (ns : List Nat) : ∀ (buf : Buffer) (out : List Nat), Inv buf →
    (∀ n ∈ ns, n < 2 ^ 63) → drainSched ns buf = some out → out = specOf buf := by
  induction ns with
  | nil =>
    intro buf out hInv _ h
    unfold drainSched at h
    split_ifs at h with hnl
    injection h with h
    rw [← h, specOf_of_newlines_nil hnl]
  | cons n ns ih =>
    intro buf out hInv hsmall h
    unfold drainSched at h
    cases hr : leftpad_read noFault n buf with
    | err c b =>
      rw [hr] at h
      dsimp only at h
      injection h with h
      obtain ⟨hnl0, -, -⟩ := read_err_noFault hr
      rw [← h, specOf_of_newlines_nil hnl0]
    | ok b2 pads cs =>
      rw [hr] at h
      dsimp only at h
      cases h2 : drainSched ns b2 with
      | none =>
        rw [h2] at h
        exact absurd h (by simp)
      | some out2 =>
        rw [h2] at h
        simp only [Option.map_some', Option.some.injEq] at h
        have hInv2 : Inv b2 := (read_ok_spec hInv (hsmall n (by simp)) hr).1
        have hout2 := ih b2 out2 hInv2 (fun m hm => hsmall m (by simp [hm])) h2
        rw [← h, hout2, List.append_assoc]
        exact read_coherence hInv (hsmall n (by simp)) hr

/-- Claim C9 (amended): in a well-formed power-of-two-capacity state, any two
sequences of read sizes that both drain the session until no complete line
remains deliver identical concatenated output bytes (pads and content
alike); in particular a schedule of `read(1)` calls agrees with a schedule
of large reads.  On non-power-of-two capacities the wrapped-line length bug
breaks this (see the counterexample). -/
theorem C9_amended (buf : Buffer) (ns1 ns2 out1 out2 : List Nat)
    (hInv : Inv buf) (h1 : ∀ n ∈ ns1, n < 2 ^ 63) (h2 : ∀ n ∈ ns2, n < 2 ^ 63)
    (hd1 : drainSched ns1 buf = some out1) (hd2 : drainSched ns2 buf = some out2) :
    out1 = out2 := by
  rw [drainSched_spec ns1 buf out1 hInv h1 hd1, drainSched_spec ns2 buf out2 hInv h2 hd2]

/-- Witness for C9: a capacity-8 width-5 session holding `"ab\n"`, drained
once with seven `read(1)` calls and once with a single `read(10)`. -/
theorem C9_witness : ([45, 45, 45, 97, 98, 10] : List Nat) = [45, 45, 45, 97, 98, 10] :=
  C9_amended ⟨8, 5, 45, [97, 98, 10, 0, 0, 0, 0, 0], 0, 3, -1, [2]⟩
    [1, 1, 1, 1, 1, 1, 1] [10] [45, 45, 45, 97, 98, 10] [45, 45, 45, 97, 98, 10]
    (by decide) (by decide) (by decide) (by decide) (by decide)

end Leftpad
